import Mathlib

/-!
# semiopen_interval

A verification development for `semiopen_interval<K, V>` (`semiopen_interval.hpp`): a map from
semi-open key ranges `[begin, end)` to values, stored as a default value plus a `std::map<K, V>`
of breakpoints.

## Embedding

* Keys are `Int` (the tests use `IntK`, a wrapper of `int`, the fuzz harness uses `int`); only the
  order of keys is ever used, no arithmetic.
* Values are any type with decidable equality (`std::regular V`).
* The `std::map` is the list of its entries in ascending key order.  An iterator is the key of
  the node it designates, or `past_end`: keys are unique and a `std::map` never relocates a node,
  so an iterator stays attached to its key through insertions.
* Operations with a precondition (`std::prev` of `begin()`, dereferencing `end()`, erasing a
  range whose first position lies after its last) return `none` when the precondition fails, so
  `assign` and `operator[]` return an `Option`.
* `std::move` of a value that stays stored in the map is explicit: `mv x` is the state in which
  moving leaves an object that held `x`.  For the value types of the tests and of the fuzz
  harness (`CharV` with a defaulted move constructor, `char`) moving is copying and `mv = id`;
  for `std::string` and `std::vector` the moved-from object is empty.
* `assign` receives `val` through a forwarding reference (`VV &&val`).  `semiopen_interval.assign`
  is the call with `val` bound to an object that is not stored in the map (a temporary, a
  literal, an object of the caller), as in every call of the tests and of the fuzz harness.
  `semiopen_interval.assign_ref` is the call with `val` bound to any object, in particular to
  the reference `operator[]` returns (`m.assign(b, e, m[k])`): there the value read through
  `val` changes when the code moves from the node `val` designates.  The two agree for an
  object outside the map (`assign_ref_object`) and whenever moving is copying
  (`assign_ref_copy`).
-/

namespace SemiopenInterval

/-! ## `std::map` as an ascending list -/

/-- Iterator of a `std::map<K, V>`: the key of a node, or the past-the-end position. -/
inductive Iter where
  | node (k : Int)
  | past_end
deriving DecidableEq, Repr

/-- Entries of a `std::map<K, V>` in iteration order. -/
abbrev Table (V : Type) := List (Int × V)

/-- Strictly ascending keys: the representation invariant of `std::map`. -/
def ascending {V : Type} (t : Table V) : Prop :=
  t.Pairwise (fun p q => p.1 < q.1)

instance {V : Type} (t : Table V) : Decidable (ascending t) := by
  unfold ascending; infer_instance

/-- Order of positions: `a` is not after `b` (the past-the-end position comes last). -/
def Iter.le : Iter → Iter → Bool
  | .node a, .node b => decide (a ≤ b)
  | _, .past_end => true
  | .past_end, .node _ => false

/-- Whether an iterator designates a node of the table or is its `end()`. -/
def valid {V : Type} (t : Table V) : Iter → Bool
  | .past_end => true
  | .node k => t.any (fun p => decide (p.1 = k))

/-- `std::map::begin`. -/
def begin_ {V : Type} (t : Table V) : Iter :=
  match t with
  | [] => .past_end
  | p :: _ => .node p.1

/-- `std::map::upper_bound`: the first node whose key is greater than `k`. -/
def upper_bound {V : Type} (t : Table V) (k : Int) : Iter :=
  match t.find? (fun p => decide (k < p.1)) with
  | some p => .node p.1
  | none => .past_end

/-- `std::prev`: the node before the position; undefined at `begin()`. -/
def prev {V : Type} (t : Table V) : Iter → Option Iter
  | .past_end => t.getLast?.map (fun p => .node p.1)
  | .node k => (t.filter (fun p => decide (p.1 < k))).getLast?.map (fun p => .node p.1)

/-- `std::next`: the position after a node; undefined at `end()`. -/
def next {V : Type} (t : Table V) : Iter → Option Iter
  | .past_end => none
  | .node k => some (upper_bound t k)

/-- `it->second`: the value stored in the node; undefined at `end()`. -/
def second {V : Type} (t : Table V) : Iter → Option V
  | .past_end => none
  | .node k => (t.find? (fun p => decide (p.1 = k))).map Prod.snd

/-- Overwrite the value stored in the node `it` designates; undefined at `end()`. -/
def set_second {V : Type} (t : Table V) (it : Iter) (x : V) : Option (Table V) :=
  match it with
  | .past_end => none
  | .node k => some (t.map (fun p => if p.1 = k then (p.1, x) else p))

/-- `std::map::insert_or_assign` (the hint only affects the running time): the entry of key `k`
is created in key order, or overwritten when it exists; returns the iterator to it. -/
def insert_or_assign {V : Type} (t : Table V) (_hint : Iter) (k : Int) (x : V) :
    Table V × Iter :=
  (t.filter (fun p => decide (p.1 < k)) ++ (k, x) :: t.filter (fun p => decide (k < p.1)),
   .node k)

/-- `std::map::emplace`: inserts the entry in key order unless the key is already present. -/
def emplace {V : Type} (t : Table V) (k : Int) (x : V) : Table V :=
  if t.any (fun p => decide (p.1 = k)) then t
  else t.filter (fun p => decide (p.1 < k)) ++ (k, x) :: t.filter (fun p => decide (k < p.1))

/-- `std::map::emplace_hint` (the hint only affects the running time). -/
def emplace_hint {V : Type} (t : Table V) (_hint : Iter) (k : Int) (x : V) : Table V :=
  emplace t k x

/-- `std::map::erase(first, last)`: removes the nodes from `first` up to, not including, `last`;
undefined unless both are iterators of the table and `first` is not after `last`. -/
def erase {V : Type} (t : Table V) (first last : Iter) : Option (Table V) :=
  if valid t first && valid t last && Iter.le first last then
    some (t.filter (fun p => !(Iter.le first (.node p.1) && !Iter.le last (.node p.1))))
  else none

/-! ## The container -/

/-- State of a `semiopen_interval<K, V>`. -/
structure semiopen_interval (V : Type) where
  /-- default value if the query is not covered by an interval -/
  _default_value : V
  /-- the breakpoints -/
  _so_intervals : Table V
deriving DecidableEq, Repr

/-- Constructor: accepts the default value for the range (-inf, inf). -/
def semiopen_interval.new {V : Type} (default_value : V) : semiopen_interval V :=
  { _default_value := default_value, _so_intervals := [] }

/-- `semiopen_interval::assign`: set `[so_begin, so_end) -> val`, called with `val` bound to an
object that is not stored in the map (for a `val` that refers into the map see
`semiopen_interval.assign_ref`).  `mv` is the moved-from state of the value type (see the
module header). -/
def semiopen_interval.assign {V : Type} [DecidableEq V] (mv : V → V)
    (m : semiopen_interval V) (so_begin so_end : Int) (val : V) :
    Option (semiopen_interval V) :=
  if ¬ (so_begin < so_end) then
    -- no op: we are trying to insert an empty interval
    some m
  else if m._so_intervals.isEmpty then
    if val ≠ m._default_value then
      some { m with
        _so_intervals := emplace (emplace m._so_intervals so_begin val) so_end m._default_value }
    else some m
  else
    -- find the insertion point for so_end
    let gt_end_it := upper_bound m._so_intervals so_end
    if gt_end_it = begin_ m._so_intervals then
      -- the range ends before the start of the map
      if val ≠ m._default_value then
        let t1 := emplace_hint m._so_intervals (begin_ m._so_intervals) so_end m._default_value
        some { m with _so_intervals := emplace_hint t1 (begin_ t1) so_begin val }
      else some m
    else
      -- find the insertion point for so_begin
      let gt_begin_it := upper_bound m._so_intervals so_begin
      do
        -- auto so_end_val = std::move(std::prev(gt_end_it)->second);
        let p ← prev m._so_intervals gt_end_it
        let so_end_val ← second m._so_intervals p
        let t1 ← set_second m._so_intervals p (mv so_end_val)
        let (t2, range_next_it) := insert_or_assign t1 gt_end_it so_end so_end_val
        let (t3, range_start_it) := insert_or_assign t2 gt_begin_it so_begin val
        -- find from where to delete
        let val_in_prev_range ←
          (if range_start_it = begin_ t3 then some m._default_value
           else (prev t3 range_start_it).bind (second t3))
        let range_start_val ← second t3 range_start_it
        let to_erase_begin ←
          (if val_in_prev_range = range_start_val then some range_start_it
           else next t3 range_start_it)
        -- find out to where to delete
        let range_next_val ← second t3 range_next_it
        let to_erase_end ←
          (if range_start_val = range_next_val then next t3 range_next_it
           else some range_next_it)
        let t4 ← erase t3 to_erase_begin to_erase_end
        some { m with _so_intervals := t4 }

/-- `semiopen_interval::operator[]`: query the value for the key. -/
def semiopen_interval.lookup {V : Type} (m : semiopen_interval V) (key : Int) : Option V :=
  let it := upper_bound m._so_intervals key
  if it = begin_ m._so_intervals then some m._default_value
  else (prev m._so_intervals it).bind (second m._so_intervals)

/-- A sequence of `assign` calls `(begin, end, value)` applied in order. -/
def semiopen_interval.assign_all {V : Type} [DecidableEq V] (mv : V → V) :
    semiopen_interval V → List (Int × Int × V) → Option (semiopen_interval V)
  | m, [] => some m
  | m, (b, e, v) :: ops => (m.assign mv b e v).bind (fun m1 => assign_all mv m1 ops)

/-! ## `assign` through its forwarding reference -/

/-- What the forwarding reference `VV &&val` of `assign` is bound to: an object that is not
stored in the map (a temporary or an object of the caller), or one of the two objects that the
`V const &` returned by `operator[]` can designate, the `_default_value` of the map or the
value stored in one of its nodes. -/
inductive Val (V : Type) where
  | object (v : V)
  | default_value
  | second (it : Iter)
deriving DecidableEq, Repr

/-- The value read through `val` while the map holds the default `d` and the table `t`;
undefined for a reference to a node that is not in the table. -/
def Val.read {V : Type} (d : V) (t : Table V) : Val V → Option V
  | .object v => some v
  | .default_value => some d
  | .second it => SemiopenInterval.second t it

/-- `semiopen_interval::operator[]` as the reference it returns (`V const &`): the
`_default_value` of the map, or the value stored in the node before `upper_bound(key)`. -/
def semiopen_interval.lookup_ref {V : Type} (m : semiopen_interval V) (key : Int) :
    Option (Val V) :=
  let it := upper_bound m._so_intervals key
  if it = begin_ m._so_intervals then some Val.default_value
  else (prev m._so_intervals it).map Val.second

/-- `semiopen_interval::assign` with `val` kept as the reference it is (`VV &&val`): each use
of `val` reads the object it is bound to in the table as it stands at that line.  A reference
into the map comes from `operator[]` and is a `V const &`, so `std::forward<VV>(val)` copies
from it.  `semiopen_interval.assign` is the call with `val` bound to an object outside the map
(`assign_ref_object`). -/
def semiopen_interval.assign_ref {V : Type} [DecidableEq V] (mv : V → V)
    (m : semiopen_interval V) (so_begin so_end : Int) (val : Val V) :
    Option (semiopen_interval V) :=
  if ¬ (so_begin < so_end) then
    -- no op: we are trying to insert an empty interval
    some m
  else if m._so_intervals.isEmpty then
    do
      let v ← val.read m._default_value m._so_intervals
      (if v ≠ m._default_value then
        some { m with
          _so_intervals := emplace (emplace m._so_intervals so_begin v) so_end m._default_value }
      else some m)
  else
    -- find the insertion point for so_end
    let gt_end_it := upper_bound m._so_intervals so_end
    if gt_end_it = begin_ m._so_intervals then
      -- the range ends before the start of the map
      do
        let v ← val.read m._default_value m._so_intervals
        (if v ≠ m._default_value then
          let t1 := emplace_hint m._so_intervals (begin_ m._so_intervals) so_end m._default_value
          (val.read m._default_value t1).bind fun v1 =>
            some { m with _so_intervals := emplace_hint t1 (begin_ t1) so_begin v1 }
        else some m)
    else
      -- find the insertion point for so_begin
      let gt_begin_it := upper_bound m._so_intervals so_begin
      do
        -- auto so_end_val = std::move(std::prev(gt_end_it)->second);
        let p ← prev m._so_intervals gt_end_it
        let so_end_val ← second m._so_intervals p
        let t1 ← set_second m._so_intervals p (mv so_end_val)
        let (t2, range_next_it) := insert_or_assign t1 gt_end_it so_end so_end_val
        -- std::forward<VV>(val), read after the move and the insertion of so_end
        let v ← val.read m._default_value t2
        let (t3, range_start_it) := insert_or_assign t2 gt_begin_it so_begin v
        -- find from where to delete
        let val_in_prev_range ←
          (if range_start_it = begin_ t3 then some m._default_value
           else (prev t3 range_start_it).bind (second t3))
        let range_start_val ← second t3 range_start_it
        let to_erase_begin ←
          (if val_in_prev_range = range_start_val then some range_start_it
           else next t3 range_start_it)
        -- find out to where to delete
        let range_next_val ← second t3 range_next_it
        let to_erase_end ←
          (if range_start_val = range_next_val then next t3 range_next_it
           else some range_next_it)
        let t4 ← erase t3 to_erase_begin to_erase_end
        some { m with _so_intervals := t4 }

/-! ## Specification -/

/-- The breakpoint with the greatest key `≤ k`, if there is one. -/
def floor_entry {V : Type} (t : Table V) (k : Int) : Option (Int × V) :=
  (t.filter (fun p => decide (p.1 ≤ k))).getLast?

/-- The value in effect after a run of breakpoints, when `d` was in effect before it. -/
def value_after {V : Type} (d : V) (l : Table V) : V :=
  match l.getLast? with
  | none => d
  | some p => p.2

/-- Closed form of the breakpoint table after `assign` (what the code computes on an
ascending table, see `assign_eq`): the breakpoints before `b`, then `b` unless the value
before it is already `v`, then `e` with the value that was in effect there unless it is `v`,
then the breakpoints after `e`. -/
def assign_table {V : Type} [DecidableEq V] (mv : V → V) (d : V) (t : Table V) (b e : Int)
    (v : V) : Table V :=
  if b < e then
    match floor_entry t e with
    | none => if v = d then t else (b, v) :: (e, d) :: t
    | some (pk, x) =>
      let lo := (t.map (fun p => if p.1 = pk then (p.1, mv x) else p)).filter
        (fun p => decide (p.1 < b))
      lo ++ (if value_after d lo = v then [] else [(b, v)]) ++
        (if v = x then [] else [(e, x)]) ++ t.filter (fun p => decide (e < p.1))
  else t

/-- The check of `invariants_test` on consecutive entries: walking the table from the value
`prev` (the default value for the whole table), no entry repeats the value before it. -/
def no_repeated_value {V : Type} (prev : V) : Table V → Prop
  | [] => True
  | p :: r => prev ≠ p.2 ∧ no_repeated_value p.2 r

instance decidable_no_repeated_value {V : Type} [DecidableEq V] :
    (prev : V) → (t : Table V) → Decidable (no_repeated_value prev t)
  | _, [] => isTrue trivial
  | prev, p :: r =>
    match decidable_no_repeated_value p.2 r with
    | isTrue h => if h' : prev = p.2 then isFalse (fun hc => hc.1 h') else isTrue ⟨h', h⟩
    | isFalse h => isFalse (fun hc => h hc.2)

/-- The three checks of `invariants_test` in the unit tests: consecutive entries, starting from
the default value, never contain the same value; the table is empty or has at least 2 entries;
the last entry of a non-empty table carries the default value (`value_after` is the value of
the last entry, or the default value when there is none). -/
def invariants_test {V : Type} (m : semiopen_interval V) : Prop :=
  no_repeated_value m._default_value m._so_intervals ∧
  (m._so_intervals = [] ∨ 2 ≤ m._so_intervals.length) ∧
  value_after m._default_value m._so_intervals = m._default_value

instance {V : Type} [DecidableEq V] (m : semiopen_interval V) :
    Decidable (invariants_test m) := by
  unfold invariants_test; infer_instance

/-- The invariants of the data model: strictly ascending keys (guaranteed by `std::map`) and
the checks of `invariants_test`. -/
def invariants {V : Type} (m : semiopen_interval V) : Prop :=
  ascending m._so_intervals ∧ invariants_test m

instance {V : Type} [DecidableEq V] (m : semiopen_interval V) : Decidable (invariants m) := by
  unfold invariants; infer_instance

/-- Moved-from state of a `std::string`: the empty string. -/
def moved_from_string : String → String := fun _ => ""

/-! ## Lemmas -/

section Lemmas
variable {V : Type}

theorem ascending_filter {t : Table V} (p : Int × V → Bool) (h : ascending t) :
    ascending (t.filter p) :=
  List.Pairwise.filter p h

theorem upper_bound_eq_begin (t : Table V) (k : Int) :
    upper_bound t k = begin_ (t.filter (fun p => decide (k < p.1))) := by
  induction t with
  | nil => rfl
  | cons a t ih =>
    by_cases h : k < a.1
    · simp [upper_bound, begin_, List.filter_cons, h]
    · have : upper_bound (a :: t) k = upper_bound t k := by
        simp [upper_bound, h]
      rw [this, ih]
      simp [List.filter_cons, h]

theorem lt_head_filter_iff {t : Table V} {k : Int} {hd : Int × V} {r : Table V}
    (hasc : ascending t) (h : t.filter (fun p => decide (k < p.1)) = hd :: r) :
    ∀ p ∈ t, (p.1 < hd.1 ↔ p.1 ≤ k) := by
  intro p hp
  have hhd : hd ∈ t.filter (fun p => decide (k < p.1)) := by rw [h]; simp
  have hk : k < hd.1 := by simpa using (List.mem_filter.1 hhd).2
  constructor
  · intro hlt
    by_contra hcon
    have hpf : p ∈ t.filter (fun p => decide (k < p.1)) :=
      List.mem_filter.2 ⟨hp, by simpa using hcon⟩
    have hascf := ascending_filter (fun p => decide (k < p.1)) hasc
    rw [h] at hpf hascf
    rcases List.mem_cons.1 hpf with heq | hmem
    · subst heq; omega
    · have := (List.pairwise_cons.1 hascf).1 p hmem
      omega
  · intro hle; omega

theorem filter_le_eq_self_of_filter_gt_nil {t : Table V} {k : Int}
    (h : t.filter (fun p => decide (k < p.1)) = []) :
    t.filter (fun p => decide (p.1 ≤ k)) = t := by
  rw [List.filter_eq_self]
  intro a ha
  have := (List.filter_eq_nil_iff.1 h) a ha
  simp at this ⊢
  omega

theorem prev_upper_bound {t : Table V} (k : Int) (hasc : ascending t) :
    prev t (upper_bound t k) = (floor_entry t k).map (fun p => Iter.node p.1) := by
  rw [upper_bound_eq_begin]
  cases h : t.filter (fun p => decide (k < p.1)) with
  | nil =>
    simp only [begin_, prev, floor_entry]
    rw [filter_le_eq_self_of_filter_gt_nil h]
  | cons hd r =>
    simp only [begin_, prev, floor_entry]
    congr 2
    apply List.filter_congr
    intro p hp
    have := lt_head_filter_iff hasc h p hp
    simp [this]

theorem second_of_mem {t : Table V} {k : Int} {x : V} (hasc : ascending t)
    (h : (k, x) ∈ t) : second t (Iter.node k) = some x := by
  induction t with
  | nil => simp at h
  | cons a t ih =>
    rcases List.mem_cons.1 h with heq | hmem
    · subst heq
      simp [second]
    · have hlt := (List.pairwise_cons.1 hasc).1 _ hmem
      have hne : ¬ a.1 = k := by simp at hlt; omega
      have := ih (List.pairwise_cons.1 hasc).2 hmem
      simpa [second, hne] using this

theorem floor_entry_mem {t : Table V} {k : Int} {p : Int × V} (h : floor_entry t k = some p) :
    p ∈ t ∧ p.1 ≤ k := by
  have := List.mem_of_getLast?_eq_some h
  simpa using List.mem_filter.1 this

theorem upper_bound_eq_begin_iff {t : Table V} (k : Int) (hasc : ascending t) :
    upper_bound t k = begin_ t ↔ floor_entry t k = none := by
  cases t with
  | nil => simp [upper_bound, begin_, floor_entry]
  | cons a t =>
    have hall := (List.pairwise_cons.1 hasc).1
    by_cases h : k < a.1
    · have : floor_entry (a :: t) k = none := by
        simp only [floor_entry, List.getLast?_eq_none_iff, List.filter_eq_nil_iff]
        intro q hq
        rcases List.mem_cons.1 hq with heq | hmem
        · subst heq; simpa using h
        · have := hall q hmem; simp; omega
      simp [upper_bound, begin_, h, this]
    · have h1 : floor_entry (a :: t) k ≠ none := by
        simp only [floor_entry, ne_eq, List.getLast?_eq_none_iff, List.filter_eq_nil_iff]
        intro hcon
        have := hcon a (by simp)
        simp at this; omega
      have h2 : upper_bound (a :: t) k ≠ begin_ (a :: t) := by
        rw [upper_bound_eq_begin]
        simp only [List.filter_cons, h, decide_False, Bool.false_eq_true, if_false]
        cases hf : t.filter (fun p => decide (k < p.1)) with
        | nil => simp [begin_]
        | cons hd r =>
          have hhd : hd ∈ t.filter (fun p => decide (k < p.1)) := by rw [hf]; simp
          have := hall hd (List.mem_filter.1 hhd).1
          simp [begin_]; omega
      simp [h1, h2]

theorem lookup_eq {m : semiopen_interval V} (k : Int) (hasc : ascending m._so_intervals) :
    m.lookup k = some (value_after m._default_value
      (m._so_intervals.filter (fun p => decide (p.1 ≤ k)))) := by
  have hb := upper_bound_eq_begin_iff k hasc
  unfold semiopen_interval.lookup
  cases h : floor_entry m._so_intervals k with
  | none =>
    simp only [if_pos (hb.2 h)]
    unfold floor_entry at h
    simp only [value_after, h]
  | some p =>
    have hm := (floor_entry_mem h).1
    have hnb : ¬ upper_bound m._so_intervals k = begin_ m._so_intervals := by
      rw [hb, h]; simp
    simp only [if_neg hnb, prev_upper_bound k hasc, h]
    unfold floor_entry at h
    simp [second_of_mem hasc hm, value_after, h]


/-! ### Iterators of an ascending table -/

theorem upper_bound_node {t : Table V} {k h : Int} (hub : upper_bound t k = Iter.node h) :
    k < h ∧ ∃ p ∈ t, p.1 = h := by
  unfold upper_bound at hub
  cases hf : t.find? (fun p => decide (k < p.1)) with
  | none => simp [hf] at hub
  | some p =>
    simp only [hf, Iter.node.injEq] at hub
    have h1 := List.find?_some hf
    have h2 := List.mem_of_find?_eq_some hf
    simp only [decide_eq_true_eq] at h1
    exact ⟨by omega, p, h2, hub⟩

theorem valid_upper_bound (t : Table V) (k : Int) : valid t (upper_bound t k) = true := by
  cases hub : upper_bound t k with
  | past_end => rfl
  | node h =>
    obtain ⟨_, p, hp, hph⟩ := upper_bound_node hub
    simp only [valid, List.any_eq_true, decide_eq_true_eq]
    exact ⟨p, hp, hph⟩

theorem valid_node_of_mem {t : Table V} {p : Int × V} (hp : p ∈ t) :
    valid t (Iter.node p.1) = true := by
  simp only [valid, List.any_eq_true, decide_eq_true_eq]
  exact ⟨p, hp, rfl⟩

theorem upper_bound_le_node {t : Table V} {p : Int × V} (k : Int) (hasc : ascending t)
    (hp : p ∈ t) : Iter.le (upper_bound t k) (Iter.node p.1) = decide (k < p.1) := by
  rw [upper_bound_eq_begin]
  cases hf : t.filter (fun p => decide (k < p.1)) with
  | nil =>
    have := (List.filter_eq_nil_iff.1 hf) p hp
    simp only [decide_eq_true_eq] at this
    simp [begin_, Iter.le, this]
  | cons hd r =>
    have := lt_head_filter_iff hasc hf p hp
    simp only [begin_, Iter.le, decide_eq_decide]
    omega

theorem node_le_upper_bound (t : Table V) {k k' : Int} (h : k' ≤ k) :
    Iter.le (Iter.node k') (upper_bound t k) = true := by
  cases hub : upper_bound t k with
  | past_end => rfl
  | node h' =>
    have := (upper_bound_node hub).1
    simp only [Iter.le, decide_eq_true_eq]
    omega

theorem upper_bound_le_upper_bound {t : Table V} {k k' : Int} (hasc : ascending t)
    (h : k' ≤ k) : Iter.le (upper_bound t k') (upper_bound t k) = true := by
  cases hub : upper_bound t k with
  | past_end => cases upper_bound t k' <;> rfl
  | node h' =>
    obtain ⟨hlt, p, hp, hph⟩ := upper_bound_node hub
    rw [← hph, upper_bound_le_node k' hasc hp]
    simp only [decide_eq_true_eq]
    omega

/-! ### Tables after an insertion -/

theorem ascending_insert {t : Table V} (k : Int) (x : V) (hasc : ascending t) :
    ascending (t.filter (fun p => decide (p.1 < k)) ++
      (k, x) :: t.filter (fun p => decide (k < p.1))) := by
  unfold ascending
  rw [List.pairwise_append]
  refine ⟨ascending_filter _ hasc, ?_, ?_⟩
  · rw [List.pairwise_cons]
    refine ⟨?_, ascending_filter _ hasc⟩
    intro a ha
    simpa using (List.mem_filter.1 ha).2
  · intro a ha c hc
    have h1 : a.1 < k := by simpa using (List.mem_filter.1 ha).2
    rcases List.mem_cons.1 hc with heq | hmem
    · subst heq; exact h1
    · have h2 : k < c.1 := by simpa using (List.mem_filter.1 hmem).2
      omega

theorem ascending_map_second {t : Table V} (f : Int × V → Int × V)
    (hf : ∀ p, (f p).1 = p.1) (hasc : ascending t) : ascending (t.map f) := by
  unfold ascending
  rw [List.pairwise_map]
  simpa [hf] using hasc

theorem filter_map_second {t : Table V} (f : Int × V → Int × V) (q : Int → Bool)
    (hf : ∀ p, (f p).1 = p.1) :
    (t.map f).filter (fun p => q p.1) = (t.filter (fun p => q p.1)).map f := by
  rw [List.filter_map]
  congr 1
  apply List.filter_congr
  intro p _
  simp [hf]


/-! ### The general case of `assign` -/

theorem erase_eq {t : Table V} {first last : Iter} (q : Int × V → Bool)
    (h1 : valid t first = true) (h2 : valid t last = true) (h3 : Iter.le first last = true)
    (hq : ∀ p ∈ t, (!(Iter.le first (.node p.1) && !Iter.le last (.node p.1))) = q p) :
    erase t first last = some (t.filter q) := by
  unfold erase
  simp only [h1, h2, h3, Bool.and_self, if_true]
  congr 1
  exact List.filter_congr hq

theorem begin_append_cons (lo : Table V) (p : Int × V) (r : Table V)
    (hlo : ∀ q ∈ lo, q.1 < p.1) :
    (Iter.node p.1 = begin_ (lo ++ p :: r)) ↔ lo = [] := by
  cases lo with
  | nil => simp [begin_]
  | cons a lo =>
    have := hlo a (by simp)
    simp only [begin_, List.cons_append, Iter.node.injEq]
    constructor
    · intro h; omega
    · intro h; simp at h

theorem assign_general (mv : V → V) [DecidableEq V] {d : V} {t : Table V} {b e pk : Int}
    {v x : V} (hasc : ascending t) (hbe : b < e) (hfl : floor_entry t e = some (pk, x)) :
    semiopen_interval.assign mv ⟨d, t⟩ b e v =
      some ⟨d,
        (t.map (fun p => if p.1 = pk then (p.1, mv x) else p)).filter
            (fun p => decide (p.1 < b)) ++
          (if value_after d ((t.map (fun p => if p.1 = pk then (p.1, mv x) else p)).filter
                  (fun p => decide (p.1 < b))) = v then [] else [(b, v)]) ++
          (if v = x then [] else [(e, x)]) ++
          t.filter (fun p => decide (e < p.1))⟩ := by
  obtain ⟨hpm, hpe⟩ := floor_entry_mem hfl
  simp only at hpe
  -- the table after the move
  set f : Int × V → Int × V := fun p => if p.1 = pk then (p.1, mv x) else p with hf
  have hfk : ∀ p, (f p).1 = p.1 := by
    intro p; simp only [hf]; split <;> rfl
  set t1 := t.map f with ht1
  have hasc1 : ascending t1 := ascending_map_second f hfk hasc
  set lo := t1.filter (fun p => decide (p.1 < b)) with hlo
  set mid := t1.filter (fun p => decide (b < p.1) && decide (p.1 < e)) with hmid
  set hi := t1.filter (fun p => decide (e < p.1)) with hhi
  have hhi_eq : hi = t.filter (fun p => decide (e < p.1)) := by
    rw [hhi, ht1, filter_map_second f (fun k => decide (e < k)) hfk]
    conv_rhs => rw [← List.map_id (t.filter (fun p => decide (e < p.1)))]
    apply List.map_congr_left
    intro p hp
    have : e < p.1 := by simpa using (List.mem_filter.1 hp).2
    have hne : ¬ p.1 = pk := by omega
    simp [hf, hne]
  have hlo_lt : ∀ p ∈ lo, p.1 < b := fun p hp => by simpa using (List.mem_filter.1 hp).2
  have hmid_in : ∀ p ∈ mid, b < p.1 ∧ p.1 < e := fun p hp => by
    simpa using (List.mem_filter.1 hp).2
  have hhi_gt : ∀ p ∈ hi, e < p.1 := fun p hp => by simpa using (List.mem_filter.1 hp).2
  -- the table after the two insertions
  set t2 := t1.filter (fun p => decide (p.1 < e)) ++ (e, x) :: t1.filter (fun p => decide (e < p.1))
    with ht2
  have hasc2 : ascending t2 := ascending_insert e x hasc1
  set t3 := t2.filter (fun p => decide (p.1 < b)) ++ (b, v) :: t2.filter (fun p => decide (b < p.1))
    with ht3
  have hasc3 : ascending t3 := ascending_insert b v hasc2
  have hlo2 : t2.filter (fun p => decide (p.1 < b)) = lo := by
    have hbe' : ¬ e < b := by omega
    rw [ht2, List.filter_append, List.filter_cons, List.filter_filter, List.filter_filter]
    simp only [hbe', decide_False, Bool.false_eq_true, if_false]
    have h1 : t1.filter (fun p => decide (p.1 < b) && decide (p.1 < e)) = lo := by
      rw [hlo]; apply List.filter_congr; intro p _
      by_cases h : p.1 < b
      · have : p.1 < e := by omega
        simp [h, this]
      · simp [h]
    have h2 : t1.filter (fun p => decide (p.1 < b) && decide (e < p.1)) = [] := by
      rw [List.filter_eq_nil_iff]; intro p _
      simp only [Bool.and_eq_true, decide_eq_true_eq, not_and]; omega
    rw [h1, h2, List.append_nil]
  have hhi2 : t2.filter (fun p => decide (b < p.1)) = mid ++ (e, x) :: hi := by
    rw [ht2, List.filter_append, List.filter_cons, List.filter_filter, List.filter_filter]
    simp only [hbe, decide_True, if_true]
    have h1 : t1.filter (fun p => decide (b < p.1) && decide (e < p.1)) = hi := by
      rw [hhi]; apply List.filter_congr; intro p _
      by_cases h : e < p.1
      · have : b < p.1 := by omega
        simp [h, this]
      · simp [h]
    rw [h1]
  have ht3' : t3 = lo ++ (b, v) :: (mid ++ (e, x) :: hi) := by rw [ht3, hlo2, hhi2]
  have hb3 : (b, v) ∈ t3 := by rw [ht3']; simp
  have he3 : (e, x) ∈ t3 := by rw [ht3']; simp
  have hlo3 : t3.filter (fun p => decide (p.1 < b)) = lo := by
    rw [ht3, List.filter_append, List.filter_cons, List.filter_filter, List.filter_filter]
    simp only [lt_irrefl, decide_False, Bool.false_eq_true, if_false, Bool.and_self]
    have h2 : t2.filter (fun p => decide (p.1 < b) && decide (b < p.1)) = [] := by
      rw [List.filter_eq_nil_iff]; intro p _
      simp only [Bool.and_eq_true, decide_eq_true_eq, not_and]; omega
    rw [h2, List.append_nil, hlo2]
  -- the value before the range
  set pred : V := value_after d lo with hpred
  have hpredv : (if Iter.node b = begin_ t3 then some d
      else (prev t3 (Iter.node b)).bind (second t3)) = some pred := by
    have hiff : Iter.node b = begin_ t3 ↔ lo = [] := by
      rw [ht3']; exact begin_append_cons lo (b, v) _ hlo_lt
    cases hl : lo.getLast? with
    | none =>
      have : lo = [] := List.getLast?_eq_none_iff.1 hl
      rw [if_pos (hiff.2 this), hpred]
      simp only [value_after, hl]
    | some p =>
      have hne : lo ≠ [] := by intro h; rw [h] at hl; simp at hl
      rw [if_neg (fun h => hne (hiff.1 h)), hpred]
      simp only [prev, hlo3, hl, Option.map_some', Option.some_bind, value_after]
      have hp3 : p ∈ t3 := by
        rw [ht3']; exact List.mem_append_left _ (List.mem_of_getLast?_eq_some hl)
      exact second_of_mem hasc3 hp3
  -- unfold the code
  have hne : t.isEmpty = false := by
    cases t with
    | nil => simp at hpm
    | cons _ _ => rfl
  have hnb : ¬ upper_bound t e = begin_ t := by
    rw [upper_bound_eq_begin_iff e hasc, hfl]; simp
  have hprev : prev t (upper_bound t e) = some (Iter.node pk) := by
    rw [prev_upper_bound e hasc, hfl]; rfl
  have hsec : second t (Iter.node pk) = some x := second_of_mem hasc hpm
  unfold semiopen_interval.assign
  simp only [hbe, not_true_eq_false, if_false, hne, Bool.false_eq_true, hnb, hprev, hsec,
    Option.bind_eq_bind, Option.some_bind, set_second, insert_or_assign]
  rw [← hf, ← ht1, ← ht2, ← ht3, hpredv, ← hhi_eq]
  simp only [Option.some_bind, second_of_mem hasc3 hb3, second_of_mem hasc3 he3, next]
  have hvb : valid t3 (Iter.node b) = true := valid_node_of_mem hb3
  have hve : valid t3 (Iter.node e) = true := valid_node_of_mem he3
  have hparts : ∀ q : Int × V → Bool, (∀ p ∈ lo, q p = true) → (∀ p ∈ mid, q p = false) →
      (∀ p ∈ hi, q p = true) →
      t3.filter q = lo ++ (if q (b, v) = true then [(b, v)] else []) ++
        (if q (e, x) = true then [(e, x)] else []) ++ hi := by
    intro q h1 h2 h3
    rw [ht3', List.filter_append, List.filter_cons, List.filter_append, List.filter_cons,
      List.filter_eq_self.2 h1, List.filter_eq_self.2 h3,
      List.filter_eq_nil_iff.2 (fun p hp => by simp [h2 p hp])]
    by_cases hqb : q (b, v) = true <;> by_cases hqe : q (e, x) = true <;> simp [hqb, hqe]
  have hnEb : ¬ e < b := by omega
  have hnEbl : ¬ e ≤ b := by omega
  by_cases h1 : pred = v <;> by_cases h2 : v = x
  · subst h2
    simp only [h1, if_true, Option.some_bind]
    rw [erase_eq (fun p => !(decide (b ≤ p.1) && !decide (e < p.1))) hvb
      (valid_upper_bound t3 e) (node_le_upper_bound t3 (le_of_lt hbe))
      (fun p hp => by rw [upper_bound_le_node e hasc3 hp]; rfl)]
    rw [hparts _ (fun p hp => by have := hlo_lt p hp; simp; omega)
      (fun p hp => by have := hmid_in p hp; simp; omega)
      (fun p hp => by have := hhi_gt p hp; simp; omega)]
    simp [hnEb]
  · simp only [h1, h2, if_true, if_false, Option.some_bind]
    rw [erase_eq (fun p => !(decide (b ≤ p.1) && !decide (e ≤ p.1))) hvb hve
      (by simp [Iter.le]; omega) (fun p hp => rfl)]
    rw [hparts _ (fun p hp => by have := hlo_lt p hp; simp; omega)
      (fun p hp => by have := hmid_in p hp; simp; omega)
      (fun p hp => by have := hhi_gt p hp; simp; omega)]
    simp [hnEbl]
  · subst h2
    simp only [h1, if_true, if_false, Option.some_bind]
    rw [erase_eq (fun p => !(decide (b < p.1) && !decide (e < p.1)))
      (valid_upper_bound t3 b) (valid_upper_bound t3 e)
      (upper_bound_le_upper_bound hasc3 (le_of_lt hbe))
      (fun p hp => by
        rw [upper_bound_le_node e hasc3 hp, upper_bound_le_node b hasc3 hp])]
    rw [hparts _ (fun p hp => by have := hlo_lt p hp; simp; omega)
      (fun p hp => by have := hmid_in p hp; simp; omega)
      (fun p hp => by have := hhi_gt p hp; simp; omega)]
    simp [hnEb, hbe]
  · simp only [h1, h2, if_false, Option.some_bind]
    rw [erase_eq (fun p => !(decide (b < p.1) && !decide (e ≤ p.1)))
      (valid_upper_bound t3 b) hve
      (by
        rw [show e = ((e, x) : Int × V).1 from rfl, upper_bound_le_node b hasc3 he3]
        simpa using hbe)
      (fun p hp => by rw [upper_bound_le_node b hasc3 hp]; rfl)]
    rw [hparts _ (fun p hp => by have := hlo_lt p hp; simp; omega)
      (fun p hp => by have := hmid_in p hp; simp; omega)
      (fun p hp => by have := hhi_gt p hp; simp; omega)]
    simp


theorem assign_eq [DecidableEq V] (mv : V → V) (m : semiopen_interval V) (b e : Int) (v : V)
    (hasc : ascending m._so_intervals) :
    m.assign mv b e v =
      some ⟨m._default_value, assign_table mv m._default_value m._so_intervals b e v⟩ := by
  obtain ⟨d, t⟩ := m
  simp only at hasc ⊢
  unfold assign_table
  by_cases hbe : b < e
  · simp only [hbe, if_true]
    cases hfl : floor_entry t e with
    | some p =>
      obtain ⟨pk, x⟩ := p
      exact assign_general mv hasc hbe hfl
    | none =>
      have hub := (upper_bound_eq_begin_iff e hasc).2 hfl
      have hall : ∀ p ∈ t, e < p.1 := by
        intro p hp
        unfold floor_entry at hfl
        have := (List.filter_eq_nil_iff.1 (List.getLast?_eq_none_iff.1 hfl)) p hp
        simp only [decide_eq_true_eq] at this
        omega
      have hany : ∀ l : Table V, (∀ p ∈ l, e < p.1) →
          emplace l e d = (e, d) :: l := by
        intro l hl
        unfold emplace
        have h1 : l.any (fun p => decide (p.1 = e)) = false := by
          rw [List.any_eq_false]; intro p hp
          have := hl p hp
          simp only [decide_eq_true_eq]; omega
        have h2 : l.filter (fun p => decide (p.1 < e)) = [] := by
          rw [List.filter_eq_nil_iff]; intro p hp
          have := hl p hp
          simp only [decide_eq_true_eq]; omega
        have h3 : l.filter (fun p => decide (e < p.1)) = l := by
          rw [List.filter_eq_self]; intro p hp
          simpa using hl p hp
        simp [h1, h2, h3]
      have hany2 : emplace ((e, d) :: t) b v = (b, v) :: (e, d) :: t := by
        unfold emplace
        have hall2 : ∀ p ∈ (e, d) :: t, b < p.1 := by
          intro p hp
          rcases List.mem_cons.1 hp with h | h
          · subst h; exact hbe
          · have := hall p h; omega
        have h1 : ((e, d) :: t).any (fun p => decide (p.1 = b)) = false := by
          rw [List.any_eq_false]; intro p hp
          have := hall2 p hp
          simp only [decide_eq_true_eq]; omega
        have h2 : ((e, d) :: t).filter (fun p => decide (p.1 < b)) = [] := by
          rw [List.filter_eq_nil_iff]; intro p hp
          have := hall2 p hp
          simp only [decide_eq_true_eq]; omega
        have h3 : ((e, d) :: t).filter (fun p => decide (b < p.1)) = (e, d) :: t := by
          rw [List.filter_eq_self]; intro p hp
          simpa using hall2 p hp
        rw [h1, h2, h3]; rfl
      unfold semiopen_interval.assign
      cases t with
      | nil =>
        by_cases hv : v = d
        · simp [hbe, hv]
        · have hne : ¬ b = e := by omega
          have hnlt : ¬ e < b := by omega
          simp [hbe, hv, emplace, hne, hnlt]
      | cons a t =>
        by_cases hv : v = d
        · simp [hbe, hv, hub]
        · simp only [hbe, not_true_eq_false, if_false, List.isEmpty_cons, Bool.false_eq_true,
            hub, if_true, ne_eq, hv, not_false_eq_true, emplace_hint]
          rw [hany _ hall, hany2]
  · unfold semiopen_interval.assign
    simp [hbe]


/-! ### Values in effect -/

theorem value_after_nil (d : V) : value_after d ([] : Table V) = d := rfl

theorem value_after_append (d : V) (l1 l2 : Table V) :
    value_after d (l1 ++ l2) = value_after (value_after d l1) l2 := by
  unfold value_after
  rw [List.getLast?_append]
  cases l2.getLast? <;> simp

theorem value_after_singleton (d : V) (p : Int × V) : value_after d [p] = p.2 := rfl

theorem value_after_opt [DecidableEq V] (c v : V) (k : Int) :
    value_after c (if c = v then [] else [(k, v)]) = v := by
  by_cases h : c = v <;> simp [h, value_after]

theorem filter_le_append_filter_gt {t : Table V} (k : Int) (hasc : ascending t) :
    t.filter (fun p => decide (p.1 ≤ k)) ++ t.filter (fun p => decide (k < p.1)) = t := by
  induction t with
  | nil => rfl
  | cons a t ih =>
    have hall := (List.pairwise_cons.1 hasc).1
    have ih' := ih (List.pairwise_cons.1 hasc).2
    by_cases h1 : a.1 ≤ k
    · have h3 : ¬ k < a.1 := by omega
      simp only [List.filter_cons, h1, h3, decide_True, decide_False, if_true,
        Bool.false_eq_true, if_false, List.cons_append, ih']
    · have h3 : k < a.1 := by omega
      have h4 : t.filter (fun p => decide (p.1 ≤ k)) = [] := by
        rw [List.filter_eq_nil_iff]; intro p hp
        have := hall p hp
        simp only [decide_eq_true_eq]; omega
      have h5 : t.filter (fun p => decide (k < p.1)) = t := by
        rw [List.filter_eq_self]; intro p hp
        have := hall p hp
        simp only [decide_eq_true_eq]; omega
      simp only [List.filter_cons, h1, h3, decide_True, decide_False, if_true,
        Bool.false_eq_true, if_false, h4, h5, List.nil_append]

theorem filter_le_split {t : Table V} {k k' : Int} (hasc : ascending t) (hk : k ≤ k') :
    t.filter (fun p => decide (p.1 ≤ k')) =
      t.filter (fun p => decide (p.1 ≤ k)) ++
        (t.filter (fun p => decide (k < p.1))).filter (fun p => decide (p.1 ≤ k')) := by
  conv_lhs => rw [← filter_le_append_filter_gt k hasc]
  rw [List.filter_append]
  congr 1
  rw [List.filter_filter]
  apply List.filter_congr
  intro p _
  by_cases h : p.1 ≤ k
  · have : p.1 ≤ k' := by omega
    simp [h, this]
  · simp [h]

theorem floor_entry_value {t : Table V} {k pk : Int} {x : V} (d : V)
    (h : floor_entry t k = some (pk, x)) :
    value_after d (t.filter (fun p => decide (p.1 ≤ k))) = x := by
  unfold floor_entry at h
  simp [value_after, h]

theorem floor_entry_none {t : Table V} {k : Int} (h : floor_entry t k = none) :
    t.filter (fun p => decide (p.1 ≤ k)) = [] := by
  unfold floor_entry at h
  exact List.getLast?_eq_none_iff.1 h


/-! ### Shape of the table after `assign` -/

theorem filter_opt (q : Int × V → Bool) (c : Prop) [Decidable c] (p : Int × V) :
    (if c then [] else [p]).filter q = if c then [] else if q p = true then [p] else [] := by
  by_cases h : c <;> by_cases h' : q p = true <;> simp [h, h']

theorem mem_opt {c : Prop} [Decidable c] {p q : Int × V}
    (h : q ∈ (if c then [] else [p])) : q = p := by
  by_cases hc : c
  · simp [hc] at h
  · simpa [hc] using h

theorem ascending_opt (c : Prop) [Decidable c] (p : Int × V) :
    ascending (if c then [] else [p]) := by
  by_cases hc : c <;> simp [hc, ascending]

theorem ascending_pieces {lo hi : Table V} {b e : Int} (cb ce : Prop) [Decidable cb]
    [Decidable ce] (v x : V) (hlo : ascending lo) (hhi : ascending hi)
    (hlo_lt : ∀ p ∈ lo, p.1 < b) (hhi_gt : ∀ p ∈ hi, e < p.1) (hbe : b < e) :
    ascending (lo ++ (if cb then [] else [(b, v)]) ++ (if ce then [] else [(e, x)]) ++ hi) := by
  unfold ascending at *
  rw [List.pairwise_append, List.pairwise_append, List.pairwise_append]
  refine ⟨⟨⟨hlo, ascending_opt cb _, ?_⟩, ascending_opt ce _, ?_⟩, hhi, ?_⟩
  · intro p hp q hq
    rw [mem_opt hq]; exact hlo_lt p hp
  · intro p hp q hq
    rw [mem_opt hq]
    rcases List.mem_append.1 hp with h | h
    · have := hlo_lt p h; simp only; omega
    · rw [mem_opt h]; exact hbe
  · intro p hp q hq
    have hq' := hhi_gt q hq
    rcases List.mem_append.1 hp with h | h
    · rcases List.mem_append.1 h with h | h
      · have := hlo_lt p h; omega
      · rw [mem_opt h]; simp only; omega
    · rw [mem_opt h]; exact hq'

theorem moved_lo_lt {t : Table V} (f : Int × V → Int × V) (b : Int) :
    ∀ p ∈ (t.map f).filter (fun p => decide (p.1 < b)), p.1 < b := by
  intro p hp
  simpa using (List.mem_filter.1 hp).2

theorem ascending_assign_table [DecidableEq V] (mv : V → V) (d : V) {t : Table V} (b e : Int)
    (v : V) (hasc : ascending t) : ascending (assign_table mv d t b e v) := by
  unfold assign_table
  by_cases hbe : b < e
  · simp only [hbe, if_true]
    cases hfl : floor_entry t e with
    | none =>
      have hall : ∀ p ∈ t, e < p.1 := by
        intro p hp
        have := (List.filter_eq_nil_iff.1 (floor_entry_none hfl)) p hp
        simp only [decide_eq_true_eq] at this
        omega
      by_cases hv : v = d
      · simpa [hv] using hasc
      · simp only [hv, if_false]
        unfold ascending at *
        rw [List.pairwise_cons, List.pairwise_cons]
        refine ⟨?_, hall, hasc⟩
        intro p hp
        rcases List.mem_cons.1 hp with h | h
        · subst h; exact hbe
        · have := hall p h; simp only; omega
    | some p =>
      obtain ⟨pk, x⟩ := p
      simp only
      apply ascending_pieces
      · apply ascending_filter
        apply ascending_map_second _ _ hasc
        intro p; split <;> rfl
      · exact ascending_filter _ hasc
      · exact moved_lo_lt _ b
      · intro p hp
        simpa using (List.mem_filter.1 hp).2
      · exact hbe
  · simpa [hbe] using hasc

theorem ascending_assign [DecidableEq V] (mv : V → V) {m m' : semiopen_interval V} {b e : Int}
    {v : V} (hasc : ascending m._so_intervals) (h : m.assign mv b e v = some m') :
    ascending m'._so_intervals := by
  rw [assign_eq mv m b e v hasc] at h
  injection h with h
  subst h
  exact ascending_assign_table mv _ b e v hasc

theorem assign_default [DecidableEq V] (mv : V → V) {m m' : semiopen_interval V} {b e : Int}
    {v : V} (hasc : ascending m._so_intervals) (h : m.assign mv b e v = some m') :
    m'._default_value = m._default_value := by
  rw [assign_eq mv m b e v hasc] at h
  injection h with h
  subst h
  rfl

/-- Value read in `[b, e)` from the table `assign` leaves. -/
theorem value_after_assign_table_inside [DecidableEq V] (mv : V → V) (d : V) {t : Table V}
    {b e k : Int} (v : V) (hbe : b < e) (hk1 : b ≤ k) (hk2 : k < e) :
    value_after d ((assign_table mv d t b e v).filter (fun p => decide (p.1 ≤ k))) = v := by
  unfold assign_table
  simp only [hbe, if_true]
  cases hfl : floor_entry t e with
  | none =>
    have hall : ∀ p ∈ t, e < p.1 := by
      intro p hp
      have := (List.filter_eq_nil_iff.1 (floor_entry_none hfl)) p hp
      simp only [decide_eq_true_eq] at this
      omega
    have hnil : t.filter (fun p => decide (p.1 ≤ k)) = [] := by
      rw [List.filter_eq_nil_iff]; intro p hp
      have := hall p hp
      simp only [decide_eq_true_eq]; omega
    by_cases hv : v = d
    · simp [hv, hnil, value_after]
    · have h1 : ¬ e ≤ k := by omega
      simp [hv, List.filter_cons, hk1, h1, hnil, value_after]
  | some p =>
    obtain ⟨pk, x⟩ := p
    simp only
    set lo := (t.map (fun p => if p.1 = pk then (p.1, mv x) else p)).filter
      (fun p => decide (p.1 < b)) with hlo
    have hlo_lt : ∀ p ∈ lo, p.1 < b := moved_lo_lt _ b
    have h1 : lo.filter (fun p => decide (p.1 ≤ k)) = lo := by
      rw [List.filter_eq_self]; intro p hp
      have := hlo_lt p hp
      simp only [decide_eq_true_eq]; omega
    have h2 : (t.filter (fun p => decide (e < p.1))).filter (fun p => decide (p.1 ≤ k)) = [] := by
      rw [List.filter_eq_nil_iff]; intro p hp
      have : e < p.1 := by simpa using (List.mem_filter.1 hp).2
      simp only [decide_eq_true_eq]; omega
    have h3 : ¬ e ≤ k := by omega
    rw [List.filter_append, List.filter_append, List.filter_append, h1, h2, filter_opt,
      filter_opt]
    simp only [decide_eq_true_eq, hk1, h3, if_true, if_false, ite_self, List.append_nil]
    rw [value_after_append, value_after_opt]


theorem floor_entry_of_greatest {t : Table V} {k : Int} {p : Int × V} (hasc : ascending t)
    (hp : p ∈ t) (hpk : p.1 ≤ k) (hmax : ∀ q ∈ t, q.1 ≤ k → q.1 ≤ p.1) :
    floor_entry t k = some p := by
  unfold floor_entry
  have hpl : p ∈ t.filter (fun p => decide (p.1 ≤ k)) :=
    List.mem_filter.2 ⟨hp, by simpa using hpk⟩
  have hascl := ascending_filter (fun p => decide (p.1 ≤ k)) hasc
  cases hl : (t.filter (fun p => decide (p.1 ≤ k))).getLast? with
  | none =>
    rw [List.getLast?_eq_none_iff.1 hl] at hpl
    simp at hpl
  | some q =>
    obtain ⟨ys, hys⟩ := List.getLast?_eq_some_iff.1 hl
    have hq : q ∈ t.filter (fun p => decide (p.1 ≤ k)) := List.mem_of_getLast?_eq_some hl
    have hq' := List.mem_filter.1 hq
    have hqk : q.1 ≤ k := by simpa using hq'.2
    have hqp := hmax q hq'.1 hqk
    rw [hys] at hpl hascl
    rcases List.mem_append.1 hpl with h | h
    · have := (List.pairwise_append.1 hascl).2.2 p h q (by simp)
      omega
    · simp only [List.mem_singleton] at h
      rw [h]


/-! ### Value types whose move is a copy (`mv = id`) -/

theorem eq_of_mem_of_key_eq {t : Table V} {p q : Int × V} (hasc : ascending t) (hp : p ∈ t)
    (hq : q ∈ t) (hk : p.1 = q.1) : p = q := by
  have h1 := second_of_mem hasc (show (p.1, p.2) ∈ t from hp)
  have h2 := second_of_mem hasc (show (q.1, q.2) ∈ t from hq)
  rw [hk, h2] at h1
  injection h1 with h1
  exact Prod.ext hk h1.symm

theorem map_move_id {t : Table V} {pk : Int} {x : V} (hasc : ascending t)
    (hp : (pk, x) ∈ t) : t.map (fun p => if p.1 = pk then (p.1, id x) else p) = t := by
  conv_rhs => rw [← List.map_id t]
  apply List.map_congr_left
  intro p hpt
  by_cases h : p.1 = pk
  · have := eq_of_mem_of_key_eq hasc hpt hp h
    simp [this]
  · simp [h]

theorem assign_table_id_general [DecidableEq V] (d : V) {t : Table V} {b e pk : Int} {x : V}
    (v : V) (hasc : ascending t) (hbe : b < e) (hfl : floor_entry t e = some (pk, x)) :
    assign_table id d t b e v =
      t.filter (fun p => decide (p.1 < b)) ++
        (if value_after d (t.filter (fun p => decide (p.1 < b))) = v then [] else [(b, v)]) ++
        (if v = x then [] else [(e, x)]) ++ t.filter (fun p => decide (e < p.1)) := by
  unfold assign_table
  simp only [hbe, if_true, hfl]
  rw [map_move_id hasc (floor_entry_mem hfl).1]

theorem assign_table_none [DecidableEq V] (mv : V → V) (d : V) {t : Table V} {b e : Int}
    (v : V) (hbe : b < e) (hfl : floor_entry t e = none) :
    assign_table mv d t b e v = if v = d then t else (b, v) :: (e, d) :: t := by
  unfold assign_table
  simp only [hbe, if_true, hfl]

theorem all_gt_of_floor_none {t : Table V} {e : Int} (hfl : floor_entry t e = none) :
    ∀ p ∈ t, e < p.1 := by
  intro p hp
  have := (List.filter_eq_nil_iff.1 (floor_entry_none hfl)) p hp
  simp only [decide_eq_true_eq] at this
  omega

/-- Values read outside `[b, e)` from the table `assign` leaves, when moving is copying. -/
theorem value_after_assign_table_outside [DecidableEq V] (d : V) {t : Table V} {b e k : Int}
    (v : V) (hasc : ascending t) (hk : k < b ∨ e ≤ k) :
    value_after d ((assign_table id d t b e v).filter (fun p => decide (p.1 ≤ k))) =
      value_after d (t.filter (fun p => decide (p.1 ≤ k))) := by
  by_cases hbe : b < e
  · cases hfl : floor_entry t e with
    | none =>
      rw [assign_table_none id d v hbe hfl]
      by_cases hv : v = d
      · simp [hv]
      · simp only [hv, if_false]
        rcases hk with hk | hk
        · have h1 : ¬ b ≤ k := by omega
          have h2 : ¬ e ≤ k := by omega
          simp [List.filter_cons, h1, h2]
        · have h1 : b ≤ k := by omega
          simp only [List.filter_cons, h1, hk, decide_True, if_true]
          rw [show (b, v) :: (e, d) :: t.filter (fun p => decide (p.1 ≤ k)) =
            [(b, v), (e, d)] ++ t.filter (fun p => decide (p.1 ≤ k)) from rfl,
            value_after_append]
          rfl
    | some p =>
      obtain ⟨pk, x⟩ := p
      rw [assign_table_id_general d v hasc hbe hfl]
      rw [List.filter_append, List.filter_append, List.filter_append, filter_opt, filter_opt]
      rcases hk with hk | hk
      · have h1 : ¬ b ≤ k := by omega
        have h2 : ¬ e ≤ k := by omega
        have h3 : (t.filter (fun p => decide (e < p.1))).filter (fun p => decide (p.1 ≤ k)) =
            [] := by
          rw [List.filter_eq_nil_iff]; intro p hp
          have : e < p.1 := by simpa using (List.mem_filter.1 hp).2
          simp only [decide_eq_true_eq]; omega
        have h4 : (t.filter (fun p => decide (p.1 < b))).filter (fun p => decide (p.1 ≤ k)) =
            t.filter (fun p => decide (p.1 ≤ k)) := by
          rw [List.filter_filter]
          apply List.filter_congr
          intro p _
          by_cases h : p.1 ≤ k
          · have : p.1 < b := by omega
            simp [h, this]
          · simp [h]
        simp only [decide_eq_true_eq, h1, h2, if_false, ite_self, List.append_nil, h3, h4]
      · have h1 : b ≤ k := by omega
        have h4 : (t.filter (fun p => decide (p.1 < b))).filter (fun p => decide (p.1 ≤ k)) =
            t.filter (fun p => decide (p.1 < b)) := by
          rw [List.filter_eq_self]; intro p hp
          have : p.1 < b := by simpa using (List.mem_filter.1 hp).2
          simp only [decide_eq_true_eq]; omega
        simp only [decide_eq_true_eq, h1, hk, if_true, h4]
        rw [value_after_append, value_after_append, value_after_append, value_after_opt,
          value_after_opt, filter_le_split hasc hk, value_after_append,
          floor_entry_value d hfl]
  · simp [assign_table, hbe]

/-- Frame property of `assign` when moving is copying: a key outside `[b, e)` reads the same
value before and after `assign(b, e, v)`. -/
theorem assign_frame_copy [DecidableEq V] (m : semiopen_interval V) (b e k : Int) (v : V)
    (hasc : ascending m._so_intervals) (hk : k < b ∨ e ≤ k) :
    ∃ m', m.assign id b e v = some m' ∧ m'.lookup k = m.lookup k := by
  refine ⟨_, assign_eq id m b e v hasc, ?_⟩
  rw [lookup_eq k (ascending_assign_table id _ b e v hasc), lookup_eq k hasc]
  simp only
  rw [value_after_assign_table_outside _ v hasc hk]


/-! ### Invariants, when moving is copying -/

theorem value_after_cons (d : V) (p : Int × V) (r : Table V) :
    value_after d (p :: r) = value_after p.2 r := by
  rw [show p :: r = [p] ++ r from rfl, value_after_append]
  rfl

theorem no_repeated_value_append (d : V) (l1 l2 : Table V) :
    no_repeated_value d (l1 ++ l2) ↔
      no_repeated_value d l1 ∧ no_repeated_value (value_after d l1) l2 := by
  induction l1 generalizing d with
  | nil => simp [no_repeated_value, value_after]
  | cons p r ih =>
    rw [List.cons_append, value_after_cons]
    show d ≠ p.2 ∧ no_repeated_value p.2 (r ++ l2) ↔
      (d ≠ p.2 ∧ no_repeated_value p.2 r) ∧ no_repeated_value (value_after p.2 r) l2
    rw [ih, and_assoc]

theorem no_repeated_value_opt [DecidableEq V] (c v : V) (k : Int) :
    no_repeated_value c (if c = v then [] else [(k, v)]) := by
  by_cases h : c = v <;> simp [h, no_repeated_value]

theorem filter_lt_append_filter_ge {t : Table V} (k : Int) (hasc : ascending t) :
    t.filter (fun p => decide (p.1 < k)) ++ t.filter (fun p => decide (k ≤ p.1)) = t := by
  have h := filter_le_append_filter_gt (k - 1) hasc
  have h1 : t.filter (fun p => decide (p.1 < k)) = t.filter (fun p => decide (p.1 ≤ k - 1)) := by
    apply List.filter_congr; intro p _
    simp only [decide_eq_decide]; omega
  have h2 : t.filter (fun p => decide (k ≤ p.1)) = t.filter (fun p => decide (k - 1 < p.1)) := by
    apply List.filter_congr; intro p _
    simp only [decide_eq_decide]; omega
  rw [h1, h2, h]

theorem size_of_no_repeated_value {d : V} {t : Table V} (h1 : no_repeated_value d t)
    (h2 : value_after d t = d) : t = [] ∨ 2 ≤ t.length := by
  cases t with
  | nil => exact Or.inl rfl
  | cons p r =>
    cases r with
    | nil =>
      exfalso
      exact h1.1 h2.symm
    | cons q r => right; simp

theorem invariants_assign_table [DecidableEq V] (d : V) {t : Table V} (b e : Int) (v : V)
    (hasc : ascending t) (h1 : no_repeated_value d t) (h2 : value_after d t = d) :
    no_repeated_value d (assign_table id d t b e v) ∧
      value_after d (assign_table id d t b e v) = d := by
  by_cases hbe : b < e
  · cases hfl : floor_entry t e with
    | none =>
      rw [assign_table_none id d v hbe hfl]
      by_cases hv : v = d
      · simp only [hv, if_true]; exact ⟨h1, h2⟩
      · simp only [hv, if_false]
        refine ⟨⟨fun h => hv h.symm, hv, h1⟩, ?_⟩
        rw [value_after_cons, value_after_cons]
        exact h2
    | some p =>
      obtain ⟨pk, x⟩ := p
      rw [assign_table_id_general d v hasc hbe hfl]
      have hx := floor_entry_value d hfl
      have hsplit := filter_le_append_filter_gt e hasc
      have hlo := filter_lt_append_filter_ge b hasc
      have h1lo : no_repeated_value d (t.filter (fun p => decide (p.1 < b))) := by
        rw [← hlo, no_repeated_value_append] at h1
        exact h1.1
      have h1hi : no_repeated_value x (t.filter (fun p => decide (e < p.1))) := by
        rw [← hsplit, no_repeated_value_append, hx] at h1
        exact h1.2
      have h2hi : value_after x (t.filter (fun p => decide (e < p.1))) = d := by
        rw [← hsplit, value_after_append, hx] at h2
        exact h2
      constructor
      · rw [no_repeated_value_append, no_repeated_value_append, no_repeated_value_append,
          value_after_append, value_after_append, value_after_append, value_after_opt,
          value_after_opt]
        exact ⟨⟨⟨h1lo, no_repeated_value_opt _ _ _⟩, no_repeated_value_opt _ _ _⟩, h1hi⟩
      · rw [value_after_append, value_after_append, value_after_append, value_after_opt,
          value_after_opt]
        exact h2hi
  · simp only [assign_table, hbe, if_false]
    exact ⟨h1, h2⟩

/-- When moving is copying, `assign` preserves the invariants of the table. -/
theorem invariants_assign_copy [DecidableEq V] {m m' : semiopen_interval V} {b e : Int} {v : V}
    (hinv : invariants m) (h : m.assign id b e v = some m') : invariants m' := by
  obtain ⟨hasc, h1, _, h2⟩ := hinv
  rw [assign_eq id m b e v hasc] at h
  injection h with h
  subst h
  have := invariants_assign_table m._default_value b e v hasc h1 h2
  exact ⟨ascending_assign_table id _ b e v hasc, this.1,
    size_of_no_repeated_value this.1 this.2, this.2⟩

theorem invariants_new (d : V) : invariants (semiopen_interval.new d) := by
  simp [invariants, invariants_test, semiopen_interval.new, ascending, no_repeated_value,
    value_after]

/-- When moving is copying, every sequence of `assign` calls succeeds and keeps the default
value and the invariants. -/
theorem invariants_assign_all_copy [DecidableEq V] (ops : List (Int × Int × V))
    (m : semiopen_interval V) (hinv : invariants m) :
    ∃ m', m.assign_all id ops = some m' ∧ m'._default_value = m._default_value ∧
      invariants m' := by
  induction ops generalizing m with
  | nil => exact ⟨m, rfl, rfl, hinv⟩
  | cons op ops ih =>
    obtain ⟨b, e, v⟩ := op
    have h1 := assign_eq id m b e v hinv.1
    obtain ⟨m', hm', hd', hinv'⟩ := ih _ (invariants_assign_copy hinv h1)
    refine ⟨m', ?_, hd', hinv'⟩
    simp only [semiopen_interval.assign_all, h1, Option.some_bind]
    exact hm'

/-- When moving is copying: after any sequence of `assign` calls on a fresh map, no breakpoint
repeats the value before it, starting from the default value. -/
theorem no_repeated_value_assign_all_copy [DecidableEq V] (d : V)
    (ops : List (Int × Int × V)) :
    ∃ m, (semiopen_interval.new d).assign_all id ops = some m ∧
      no_repeated_value d m._so_intervals := by
  obtain ⟨m, hm, hd, hinv⟩ := invariants_assign_all_copy ops _ (invariants_new d)
  refine ⟨m, hm, ?_⟩
  have := hinv.2.1
  rwa [hd] at this

/-- When moving is copying: after any sequence of `assign` calls on a fresh map, the table is
empty or has at least 2 breakpoints, and its last breakpoint, if any, carries the default. -/
theorem size_and_last_assign_all_copy [DecidableEq V] (d : V) (ops : List (Int × Int × V)) :
    ∃ m, (semiopen_interval.new d).assign_all id ops = some m ∧
      (m._so_intervals = [] ∨ 2 ≤ m._so_intervals.length) ∧
      ∀ p, m._so_intervals.getLast? = some p → p.2 = d := by
  obtain ⟨m, hm, hd, hinv⟩ := invariants_assign_all_copy ops _ (invariants_new d)
  refine ⟨m, hm, hinv.2.2.1, ?_⟩
  intro p hp
  have := hinv.2.2.2
  rw [hd] at this
  simpa [value_after, hp] using this


/-! ### Keys no range covers, idempotence and merging, when moving is copying -/

theorem lookup_new (d : V) (k : Int) : (semiopen_interval.new d).lookup k = some d := rfl

theorem lookup_assign_all_copy [DecidableEq V] (ops : List (Int × Int × V)) (k : Int)
    (m : semiopen_interval V) (hasc : ascending m._so_intervals)
    (hk : ∀ op ∈ ops, ¬ (op.1 ≤ k ∧ k < op.2.1)) :
    ∃ m', m.assign_all id ops = some m' ∧ m'.lookup k = m.lookup k := by
  induction ops generalizing m with
  | nil => exact ⟨m, rfl, rfl⟩
  | cons op ops ih =>
    obtain ⟨b, e, v⟩ := op
    have hout : k < b ∨ e ≤ k := by
      have := hk (b, e, v) (by simp)
      simp only [not_and, not_lt] at this
      omega
    obtain ⟨m1, hm1, hl1⟩ := assign_frame_copy m b e k v hasc hout
    obtain ⟨m', hm', hl'⟩ := ih m1 (ascending_assign id hasc hm1)
      (fun op hop => hk op (List.mem_cons_of_mem _ hop))
    refine ⟨m', ?_, by rw [hl', hl1]⟩
    simp only [semiopen_interval.assign_all, hm1, Option.some_bind]
    exact hm'

/-- When moving is copying: a key that lies in none of the assigned ranges reads the default
value after any sequence of `assign` calls on a fresh map. -/
theorem uncovered_key_reads_default_copy [DecidableEq V] (d : V) (ops : List (Int × Int × V))
    (k : Int) (hk : ∀ op ∈ ops, ¬ (op.1 ≤ k ∧ k < op.2.1)) :
    ∃ m, (semiopen_interval.new d).assign_all id ops = some m ∧ m.lookup k = some d := by
  obtain ⟨m, hm, hl⟩ := lookup_assign_all_copy ops k (semiopen_interval.new d)
    (by simp [semiopen_interval.new, ascending]) hk
  exact ⟨m, hm, by rw [hl, lookup_new]⟩

theorem filter_pieces (q : Int × V → Bool) (lo hi : Table V) (cb ce : Prop) [Decidable cb]
    [Decidable ce] (pb pe : Int × V) :
    (lo ++ (if cb then [] else [pb]) ++ (if ce then [] else [pe]) ++ hi).filter q =
      lo.filter q ++ (if cb then [] else if q pb = true then [pb] else []) ++
        (if ce then [] else if q pe = true then [pe] else []) ++ hi.filter q := by
  rw [List.filter_append, List.filter_append, List.filter_append, filter_opt, filter_opt]

theorem assign_table_idempotent_copy [DecidableEq V] (d : V) {t : Table V} (b e : Int) (v : V)
    (hasc : ascending t) :
    assign_table id d (assign_table id d t b e v) b e v = assign_table id d t b e v := by
  by_cases hbe : b < e
  · have hnEb : ¬ e < b := by omega
    have hnEbl : ¬ e ≤ b := by omega
    have hble : b ≤ e := by omega
    cases hfl : floor_entry t e with
    | none =>
      have hall := all_gt_of_floor_none hfl
      rw [assign_table_none id d v hbe hfl]
      by_cases hv : v = d
      · simp only [hv, if_true]
        rw [assign_table_none id d d hbe hfl]
        simp
      · simp only [hv, if_false]
        have hasc' : ascending ((b, v) :: (e, d) :: t) := by
          have := ascending_assign_table id d b e v hasc
          rwa [assign_table_none id d v hbe hfl, if_neg hv] at this
        have hle : t.filter (fun p => decide (p.1 ≤ e)) = [] := floor_entry_none hfl
        have hfl' : floor_entry ((b, v) :: (e, d) :: t) e = some (e, d) := by
          simp [floor_entry, List.filter_cons, hble, hle]
        have hlt : t.filter (fun p => decide (p.1 < b)) = [] := by
          rw [List.filter_eq_nil_iff]; intro p hp
          have := hall p hp
          simp only [decide_eq_true_eq]; omega
        have hgt : t.filter (fun p => decide (e < p.1)) = t := by
          rw [List.filter_eq_self]; intro p hp
          simpa using hall p hp
        rw [assign_table_id_general d v hasc' hbe hfl']
        have hdv : ¬ d = v := fun h => hv h.symm
        simp [List.filter_cons, hbe, hnEb, hlt, hgt, value_after, hv, hdv]
    | some p =>
      obtain ⟨pk, x⟩ := p
      rw [assign_table_id_general d v hasc hbe hfl]
      set lo := t.filter (fun p => decide (p.1 < b)) with hlo
      set hi := t.filter (fun p => decide (e < p.1)) with hhi
      set r := lo ++ (if value_after d lo = v then [] else [(b, v)]) ++
        (if v = x then [] else [(e, x)]) ++ hi with hr
      have hascr : ascending r := by
        have := ascending_assign_table id d b e v hasc
        rwa [assign_table_id_general d v hasc hbe hfl] at this
      have hlo_lt : ∀ p ∈ lo, p.1 < b := fun p hp => by simpa using (List.mem_filter.1 hp).2
      have hhi_gt : ∀ p ∈ hi, e < p.1 := fun p hp => by simpa using (List.mem_filter.1 hp).2
      have f1 : lo.filter (fun p => decide (p.1 < b)) = lo :=
        List.filter_eq_self.2 (fun p hp => by simpa using hlo_lt p hp)
      have f2 : hi.filter (fun p => decide (p.1 < b)) = [] :=
        List.filter_eq_nil_iff.2 (fun p hp => by
          have := hhi_gt p hp; simp only [decide_eq_true_eq]; omega)
      have f3 : lo.filter (fun p => decide (e < p.1)) = [] :=
        List.filter_eq_nil_iff.2 (fun p hp => by
          have := hlo_lt p hp; simp only [decide_eq_true_eq]; omega)
      have f4 : hi.filter (fun p => decide (e < p.1)) = hi :=
        List.filter_eq_self.2 (fun p hp => by simpa using hhi_gt p hp)
      have f5 : lo.filter (fun p => decide (p.1 ≤ e)) = lo :=
        List.filter_eq_self.2 (fun p hp => by
          have := hlo_lt p hp; simp only [decide_eq_true_eq]; omega)
      have f6 : hi.filter (fun p => decide (p.1 ≤ e)) = [] :=
        List.filter_eq_nil_iff.2 (fun p hp => by
          have := hhi_gt p hp; simp only [decide_eq_true_eq]; omega)
      have hrlt : r.filter (fun p => decide (p.1 < b)) = lo := by
        rw [hr, filter_pieces, f1, f2]
        simp [hbe, hnEb]
      have hrgt : r.filter (fun p => decide (e < p.1)) = hi := by
        rw [hr, filter_pieces, f3, f4]
        simp [hbe, hnEb]
      have hrle : r.filter (fun p => decide (p.1 ≤ e)) =
          lo ++ (if value_after d lo = v then [] else [(b, v)]) ++
            (if v = x then [] else [(e, x)]) := by
        rw [hr, filter_pieces, f5, f6]
        simp [hble]
      have hva : value_after d (r.filter (fun p => decide (p.1 ≤ e))) = x := by
        rw [hrle, value_after_append, value_after_append, value_after_opt, value_after_opt]
      cases hflr : floor_entry r e with
      | none =>
        have hnil := floor_entry_none hflr
        rw [hnil] at hva
        rw [hrle] at hnil
        have hlo_nil : lo = [] := by
          cases hl : lo with
          | nil => rfl
          | cons a l => rw [hl] at hnil; simp at hnil
        have hvd : v = d := by
          by_contra hne
          rw [hlo_nil] at hnil
          have hdv : ¬ d = v := fun h => hne h.symm
          simp [value_after, hdv] at hnil
        rw [assign_table_none id d v hbe hflr, if_pos hvd]
      | some p' =>
        obtain ⟨pk', x'⟩ := p'
        have hx' : x' = x := by
          rw [← floor_entry_value d hflr, hva]
        subst hx'
        rw [assign_table_id_general d v hascr hbe hflr, hrlt, hrgt]
  · simp [assign_table, hbe]

/-- When moving is copying: applying the same `assign(b, e, v)` twice in a row yields the
state that applying it once yields. -/
theorem assign_idempotent_copy [DecidableEq V] (m : semiopen_interval V) (b e : Int) (v : V)
    (hasc : ascending m._so_intervals) :
    ∃ m1, m.assign id b e v = some m1 ∧ m1.assign id b e v = some m1 := by
  refine ⟨_, assign_eq id m b e v hasc, ?_⟩
  rw [assign_eq id _ b e v (ascending_assign_table id _ b e v hasc)]
  simp only
  rw [assign_table_idempotent_copy _ b e v hasc]


/-- When moving is copying: if the value in effect just left of `b` and the value in effect at
`e` are both `v`, `assign(b, e, v)` leaves exactly the breakpoints of the old table whose key is
outside the closed range `[b, e]`: none at `b`, none at `e`, none in between, and the size
drops by the number of breakpoints the table had in `[b, e]`. -/
theorem merge_collapse_copy [DecidableEq V] (m : semiopen_interval V) (b e : Int) (v : V)
    (hasc : ascending m._so_intervals) (hbe : b < e)
    (hleft : value_after m._default_value
      (m._so_intervals.filter (fun p => decide (p.1 < b))) = v)
    (hright : m.lookup e = some v) :
    ∃ m', m.assign id b e v = some m' ∧
      m'._so_intervals =
        m._so_intervals.filter (fun p => !(decide (b ≤ p.1) && decide (p.1 ≤ e))) ∧
      (∀ p ∈ m'._so_intervals, ¬ (b ≤ p.1 ∧ p.1 ≤ e)) ∧
      m'._so_intervals.length +
        (m._so_intervals.filter (fun p => decide (b ≤ p.1) && decide (p.1 ≤ e))).length =
          m._so_intervals.length := by
  obtain ⟨d, t⟩ := m
  simp only at hasc hleft hright ⊢
  have htab : assign_table id d t b e v =
      t.filter (fun p => !(decide (b ≤ p.1) && decide (p.1 ≤ e))) := by
    rw [lookup_eq e hasc] at hright
    injection hright with hright
    simp only at hright
    cases hfl : floor_entry t e with
    | none =>
      rw [floor_entry_none hfl] at hright
      have hvd : v = d := hright.symm
      have hall := all_gt_of_floor_none hfl
      rw [assign_table_none id d v hbe hfl, if_pos hvd]
      symm
      rw [List.filter_eq_self]
      intro p hp
      have := hall p hp
      simp only [Bool.not_eq_true', Bool.and_eq_false_imp, decide_eq_true_eq,
        decide_eq_false_iff_not]
      omega
    | some p =>
      obtain ⟨pk, x⟩ := p
      rw [floor_entry_value d hfl] at hright
      rw [assign_table_id_general d v hasc hbe hfl, if_pos hleft, if_pos hright.symm]
      simp only [List.append_nil]
      conv_rhs => rw [← filter_lt_append_filter_ge b hasc]
      rw [List.filter_append, List.filter_filter, List.filter_filter]
      congr 1
      · apply List.filter_congr
        intro p _
        by_cases h : p.1 < b
        · have : ¬ b ≤ p.1 := by omega
          simp [h, this]
        · simp [h]
      · apply List.filter_congr
        intro p _
        by_cases h : b ≤ p.1
        · by_cases h' : p.1 ≤ e
          · have : ¬ e < p.1 := by omega
            simp [h, h', this]
          · have : e < p.1 := by omega
            simp [h, h', this]
        · have : ¬ e < p.1 := by omega
          simp [h, this]
  refine ⟨_, assign_eq id ⟨d, t⟩ b e v hasc, htab, ?_, ?_⟩
  · simp only [htab]
    intro p hp
    have := (List.mem_filter.1 hp).2
    simp only [Bool.not_eq_true', Bool.and_eq_false_imp, decide_eq_true_eq,
      decide_eq_false_iff_not] at this
    omega
  · simp only [htab]
    have := @List.length_eq_length_filter_add _ t
      (fun p => decide (b ≤ p.1) && decide (p.1 ≤ e))
    omega



/-! ### Sequences of calls, for every value type -/

theorem assign_all_ascending [DecidableEq V] (mv : V → V) (ops : List (Int × Int × V))
    (m : semiopen_interval V) (hasc : ascending m._so_intervals) :
    ∃ m', m.assign_all mv ops = some m' ∧ ascending m'._so_intervals ∧
      m'._default_value = m._default_value := by
  induction ops generalizing m with
  | nil => exact ⟨m, rfl, hasc, rfl⟩
  | cons op ops ih =>
    obtain ⟨b, e, v⟩ := op
    have h1 := assign_eq mv m b e v hasc
    obtain ⟨m', hm', hasc', hd'⟩ := ih _ (ascending_assign mv hasc h1)
    refine ⟨m', ?_, hasc', hd'⟩
    simp only [semiopen_interval.assign_all, h1, Option.some_bind]
    exact hm'

theorem nodup_keys_of_ascending {t : Table V} (hasc : ascending t) :
    (t.map Prod.fst).Nodup := by
  unfold List.Nodup
  rw [List.pairwise_map]
  exact List.Pairwise.imp (fun h => ne_of_lt h) hasc

theorem moved_key_mem {t : Table V} {f : Int × V → Int × V} (hf : ∀ p, (f p).1 = p.1)
    {q : Int × V} (hq : q ∈ t.map f) : ∃ p ∈ t, p.1 = q.1 := by
  obtain ⟨p, hp, hpq⟩ := List.mem_map.1 hq
  exact ⟨p, hp, by rw [← hpq, hf]⟩

theorem mem_opt_iff {c : Prop} [Decidable c] {p q : Int × V} :
    q ∈ (if c then [] else [p]) ↔ ¬ c ∧ q = p := by
  by_cases hc : c <;> simp [hc]

/-- The breakpoint at `e` after `assign(b, e, v)`: present exactly when the value in effect
at `e` before the call differs from `v`, and then it carries that value. -/
theorem mem_assign_table_end [DecidableEq V] (mv : V → V) (d : V) {t : Table V} {b e : Int}
    (v y : V) (hbe : b < e) :
    (e, y) ∈ assign_table mv d t b e v ↔
      (y = value_after d (t.filter (fun p => decide (p.1 ≤ e))) ∧
        v ≠ value_after d (t.filter (fun p => decide (p.1 ≤ e)))) := by
  cases hfl : floor_entry t e with
  | none =>
    have hall := all_gt_of_floor_none hfl
    rw [assign_table_none mv d v hbe hfl, floor_entry_none hfl, value_after_nil]
    by_cases hv : v = d
    · simp only [hv, if_true, ne_eq, not_true_eq_false, and_false, iff_false]
      intro h
      have := hall _ h
      simp at this
    · simp only [hv, if_false, List.mem_cons, Prod.mk.injEq, ne_eq, not_false_eq_true,
        and_true]
      constructor
      · rintro (h | h | h)
        · omega
        · exact h.2
        · have := hall _ h
          simp at this
      · intro h
        exact Or.inr (Or.inl ⟨trivial, h⟩)
  | some p =>
    obtain ⟨pk, x⟩ := p
    rw [floor_entry_value d hfl]
    unfold assign_table
    simp only [hbe, if_true, hfl, List.mem_append, mem_opt_iff, Prod.mk.injEq]
    constructor
    · rintro (((h | h) | h) | h)
      · have := moved_lo_lt _ b _ h
        simp only at this
        omega
      · omega
      · exact ⟨h.2.2, h.1⟩
      · have : e < e := by simpa using (List.mem_filter.1 h).2
        omega
    · rintro ⟨h1, h2⟩
      exact Or.inl (Or.inr ⟨h2, trivial, h1⟩)


/-! ### Ranges that end at or before the first breakpoint -/

theorem floor_entry_nil (k : Int) : floor_entry ([] : Table V) k = none := rfl

theorem tail_gt_of_ascending {p : Int × V} {r : Table V} (hasc : ascending (p :: r)) :
    ∀ q ∈ r, p.1 < q.1 :=
  (List.pairwise_cons.1 hasc).1

theorem mem_assign_table_copy [DecidableEq V] (d : V) {t : Table V} {b e : Int} (v : V)
    (p : Int × V) (hasc : ascending t) (hbe : b < e) :
    p ∈ assign_table id d t b e v ↔
      ((p ∈ t ∧ (p.1 < b ∨ e < p.1)) ∨
        (p = (b, v) ∧ value_after d (t.filter (fun p => decide (p.1 < b))) ≠ v) ∨
        (p = (e, value_after d (t.filter (fun p => decide (p.1 ≤ e)))) ∧
          v ≠ value_after d (t.filter (fun p => decide (p.1 ≤ e))))) := by
  cases hfl : floor_entry t e with
  | none =>
    have hall := all_gt_of_floor_none hfl
    have hlt : t.filter (fun p => decide (p.1 < b)) = [] := by
      rw [List.filter_eq_nil_iff]; intro q hq
      have := hall q hq
      simp only [decide_eq_true_eq]; omega
    rw [assign_table_none id d v hbe hfl, floor_entry_none hfl, hlt, value_after_nil]
    by_cases hv : v = d
    · subst hv
      simp only [if_true, ne_eq, not_true_eq_false, and_false, or_false]
      constructor
      · intro h; exact ⟨h, Or.inr (hall p h)⟩
      · intro h; exact h.1
    · have hdv : ¬ d = v := fun h => hv h.symm
      simp only [hv, if_false, List.mem_cons, ne_eq, hdv, not_false_eq_true, and_true]
      constructor
      · rintro (h | h | h)
        · exact Or.inr (Or.inl h)
        · exact Or.inr (Or.inr h)
        · exact Or.inl ⟨h, Or.inr (hall p h)⟩
      · rintro (h | h | h)
        · exact Or.inr (Or.inr h.1)
        · exact Or.inl h
        · exact Or.inr (Or.inl h)
  | some q =>
    obtain ⟨pk, x⟩ := q
    rw [assign_table_id_general d v hasc hbe hfl, floor_entry_value d hfl]
    simp only [List.mem_append, mem_opt_iff, List.mem_filter, decide_eq_true_eq, ne_eq]
    constructor
    · rintro (((h | h) | h) | h)
      · exact Or.inl ⟨h.1, Or.inl h.2⟩
      · exact Or.inr (Or.inl ⟨h.2, h.1⟩)
      · exact Or.inr (Or.inr ⟨h.2, h.1⟩)
      · exact Or.inl ⟨h.1, Or.inr h.2⟩
    · rintro (⟨h, h' | h'⟩ | h | h)
      · exact Or.inl (Or.inl (Or.inl ⟨h, h'⟩))
      · exact Or.inr ⟨h, h'⟩
      · exact Or.inl (Or.inl (Or.inr ⟨h.2, h.1⟩))
      · exact Or.inl (Or.inr ⟨h.2, h.1⟩)

/-- When moving is copying: after `assign(b, e, v)` with `b < e` the table holds a breakpoint
at `b` exactly when the value in effect just left of `b` before the call differs from `v`, and
a breakpoint at `b` carries `v`. -/
theorem assign_begin_breakpoint_copy [DecidableEq V] (m : semiopen_interval V) (b e : Int)
    (v : V) (hasc : ascending m._so_intervals) (hbe : b < e) :
    ∃ m', m.assign id b e v = some m' ∧
      ((∃ x, (b, x) ∈ m'._so_intervals) ↔
        value_after m._default_value (m._so_intervals.filter (fun p => decide (p.1 < b))) ≠ v) ∧
      (∀ x, (b, x) ∈ m'._so_intervals → x = v) := by
  refine ⟨_, assign_eq id m b e v hasc, ?_, ?_⟩
  · simp only [mem_assign_table_copy _ v _ hasc hbe, Prod.mk.injEq]
    constructor
    · rintro ⟨x, (h | h | h)⟩
      · have := h.2; simp only at this; omega
      · exact h.2
      · omega
    · intro h
      exact ⟨v, Or.inr (Or.inl ⟨⟨trivial, rfl⟩, h⟩)⟩
  · intro x hx
    rcases (mem_assign_table_copy _ v _ hasc hbe).1 hx with h | h | h
    · have := h.2; simp only at this; omega
    · exact (Prod.mk.inj h.1).2
    · have := (Prod.mk.inj h.1).1; omega

/-- When moving is copying: `assign(b, e, v)` with `b < e` leaves no breakpoint strictly
between `b` and `e`, keeps every breakpoint with key `< b` or `> e` with its value, and adds
no breakpoint at a key other than `b` and `e`. -/
theorem assign_touches_only_range_copy [DecidableEq V] (m : semiopen_interval V) (b e : Int)
    (v : V) (hasc : ascending m._so_intervals) (hbe : b < e) :
    ∃ m', m.assign id b e v = some m' ∧
      (∀ p ∈ m'._so_intervals, ¬ (b < p.1 ∧ p.1 < e)) ∧
      (∀ p ∈ m._so_intervals, (p.1 < b ∨ e < p.1) → p ∈ m'._so_intervals) ∧
      (∀ p ∈ m'._so_intervals, p.1 ≠ b → p.1 ≠ e → p ∈ m._so_intervals) := by
  refine ⟨_, assign_eq id m b e v hasc, ?_, ?_, ?_⟩
  · intro p hp
    rcases (mem_assign_table_copy _ v p hasc hbe).1 hp with h | h | h
    · omega
    · rw [h.1]; simp only; omega
    · rw [h.1]; simp only; omega
  · intro p hp hout
    exact (mem_assign_table_copy _ v p hasc hbe).2 (Or.inl ⟨hp, hout⟩)
  · intro p hp hb he
    rcases (mem_assign_table_copy _ v p hasc hbe).1 hp with h | h | h
    · exact h.1
    · rw [h.1] at hb; exact absurd rfl hb
    · rw [h.1] at he; exact absurd rfl he


/-- For every value type: `assign(b, e, v)` with `b < e` leaves no breakpoint strictly between
`b` and `e`, keeps a breakpoint at every key `< b` or `> e` that had one, and creates no
breakpoint at a key other than `b` and `e`.  What a moved-from value type can lose is the value
stored at a key `< b`, not the key. -/
theorem assign_touches_only_range_keys [DecidableEq V] (mv : V → V) (m : semiopen_interval V)
    (b e : Int) (v : V) (hasc : ascending m._so_intervals) (hbe : b < e) :
    ∃ m', m.assign mv b e v = some m' ∧
      (∀ p ∈ m'._so_intervals, ¬ (b < p.1 ∧ p.1 < e)) ∧
      (∀ p ∈ m._so_intervals, (p.1 < b ∨ e < p.1) → ∃ q ∈ m'._so_intervals, q.1 = p.1) ∧
      (∀ q ∈ m'._so_intervals, q.1 ≠ b → q.1 ≠ e → ∃ p ∈ m._so_intervals, p.1 = q.1) := by
  obtain ⟨d, t⟩ := m
  simp only at hasc ⊢
  refine ⟨_, assign_eq mv ⟨d, t⟩ b e v hasc, ?_⟩
  simp only
  cases hfl : floor_entry t e with
  | none =>
    have hall := all_gt_of_floor_none hfl
    rw [assign_table_none mv d v hbe hfl]
    by_cases hv : v = d
    · simp only [hv, if_true]
      refine ⟨?_, ?_, ?_⟩
      · intro p hp; have := hall p hp; omega
      · intro p hp _; exact ⟨p, hp, rfl⟩
      · intro q hq _ _; exact ⟨q, hq, rfl⟩
    · simp only [hv, if_false]
      refine ⟨?_, ?_, ?_⟩
      · intro p hp
        rcases List.mem_cons.1 hp with h | h
        · rw [h]; simp only; omega
        · rcases List.mem_cons.1 h with h | h
          · rw [h]; simp only; omega
          · have := hall p h; omega
      · intro p hp _
        exact ⟨p, List.mem_cons_of_mem _ (List.mem_cons_of_mem _ hp), rfl⟩
      · intro q hq hb he
        rcases List.mem_cons.1 hq with h | h
        · rw [h] at hb; exact absurd rfl hb
        · rcases List.mem_cons.1 h with h | h
          · rw [h] at he; exact absurd rfl he
          · exact ⟨q, h, rfl⟩
  | some p0 =>
    obtain ⟨pk, x⟩ := p0
    have hfk : ∀ p : Int × V, (if p.1 = pk then (p.1, mv x) else p).1 = p.1 := by
      intro p; split <;> rfl
    unfold assign_table
    simp only [hbe, if_true, hfl]
    refine ⟨?_, ?_, ?_⟩
    · intro p hp
      simp only [List.mem_append, mem_opt_iff, List.mem_filter, decide_eq_true_eq] at hp
      rcases hp with ((h | h) | h) | h
      · omega
      · rw [h.2]; simp only; omega
      · rw [h.2]; simp only; omega
      · omega
    · intro p hp hout
      rcases hout with h | h
      · refine ⟨if p.1 = pk then (p.1, mv x) else p, ?_, hfk p⟩
        apply List.mem_append_left
        apply List.mem_append_left
        apply List.mem_append_left
        rw [List.mem_filter]
        refine ⟨List.mem_map.2 ⟨p, hp, rfl⟩, ?_⟩
        rw [hfk p]
        simpa using h
      · exact ⟨p, List.mem_append_right _ (List.mem_filter.2 ⟨hp, by simpa using h⟩), rfl⟩
    · intro q hq hb he
      simp only [List.mem_append, mem_opt_iff] at hq
      rcases hq with ((h | h) | h) | h
      · exact moved_key_mem hfk (List.mem_filter.1 h).1
      · rw [h.2] at hb; exact absurd rfl hb
      · rw [h.2] at he; exact absurd rfl he
      · exact ⟨q, (List.mem_filter.1 h).1, rfl⟩

/-! ### Canonical form -/

theorem filter_le_cons_of_lt {p : Int × V} {r : Table V} {k : Int}
    (hasc : ascending (p :: r)) (hk : k < p.1) :
    (p :: r).filter (fun q => decide (q.1 ≤ k)) = [] := by
  rw [List.filter_eq_nil_iff]
  intro q hq
  simp only [decide_eq_true_eq]
  rcases List.mem_cons.1 hq with h | h
  · rw [h]; omega
  · have := tail_gt_of_ascending hasc q h
    omega

theorem filter_le_cons_of_le {p : Int × V} {r : Table V} {k : Int} (hk : p.1 ≤ k) :
    (p :: r).filter (fun q => decide (q.1 ≤ k)) = p :: r.filter (fun q => decide (q.1 ≤ k)) := by
  simp [List.filter_cons, hk]

theorem filter_le_tail_of_lt {p : Int × V} {r : Table V} {k : Int}
    (hasc : ascending (p :: r)) (hk : k ≤ p.1) :
    r.filter (fun q => decide (q.1 ≤ k)) = [] := by
  rw [List.filter_eq_nil_iff]
  intro q hq
  have := tail_gt_of_ascending hasc q hq
  simp only [decide_eq_true_eq]
  omega

/-- Two ascending tables without repeated values that read the same value at every key,
starting from the same value `c`, are the same table. -/
theorem canonical_unique (c : V) (t1 t2 : Table V) (h1 : ascending t1) (h2 : ascending t2)
    (r1 : no_repeated_value c t1) (r2 : no_repeated_value c t2)
    (hl : ∀ k : Int, value_after c (t1.filter (fun p => decide (p.1 ≤ k))) =
      value_after c (t2.filter (fun p => decide (p.1 ≤ k)))) : t1 = t2 := by
  induction t1 generalizing c t2 with
  | nil =>
    cases t2 with
    | nil => rfl
    | cons q s =>
      exfalso
      have := hl q.1
      rw [filter_le_cons_of_le (le_refl _), filter_le_tail_of_lt h2 (le_refl _)] at this
      exact r2.1 this
  | cons p r ih =>
    cases t2 with
    | nil =>
      exfalso
      have := hl p.1
      rw [filter_le_cons_of_le (le_refl _), filter_le_tail_of_lt h1 (le_refl _)] at this
      exact r1.1 this.symm
    | cons q s =>
      have hkey : p.1 = q.1 := by
        rcases lt_trichotomy p.1 q.1 with h | h | h
        · exfalso
          have := hl p.1
          rw [filter_le_cons_of_le (le_refl _), filter_le_tail_of_lt h1 (le_refl _),
            filter_le_cons_of_lt h2 h] at this
          exact r1.1 this.symm
        · exact h
        · exfalso
          have := hl q.1
          rw [filter_le_cons_of_le (le_refl _), filter_le_tail_of_lt h2 (le_refl _),
            filter_le_cons_of_lt h1 h] at this
          exact r2.1 this
      have hval : p.2 = q.2 := by
        have := hl p.1
        rw [filter_le_cons_of_le (le_refl _), filter_le_tail_of_lt h1 (le_refl _),
          filter_le_cons_of_le (le_of_eq hkey.symm),
          filter_le_tail_of_lt h2 (le_of_eq hkey)] at this
        exact this
      have hpq : p = q := Prod.ext hkey hval
      subst hpq
      congr 1
      apply ih p.2 s (List.pairwise_cons.1 h1).2 (List.pairwise_cons.1 h2).2 r1.2 r2.2
      intro k
      by_cases hk : p.1 ≤ k
      · have := hl k
        rw [filter_le_cons_of_le hk, filter_le_cons_of_le hk, value_after_cons,
          value_after_cons] at this
        exact this
      · have hk' : k ≤ p.1 := by omega
        rw [filter_le_tail_of_lt h1 hk', filter_le_tail_of_lt h2 hk']

/-- Two states with the same default value that satisfy the invariants and return the same
value at every key have the same table. -/
theorem table_eq_of_lookup_eq {m1 m2 : semiopen_interval V} (hd : m1._default_value =
    m2._default_value) (h1 : invariants m1) (h2 : invariants m2)
    (hl : ∀ k, m1.lookup k = m2.lookup k) : m1._so_intervals = m2._so_intervals := by
  apply canonical_unique m1._default_value _ _ h1.1 h2.1 h1.2.1 (hd ▸ h2.2.1)
  intro k
  have := hl k
  rw [lookup_eq k h1.1, lookup_eq k h2.1, ← hd] at this
  injection this

/-- When moving is copying: on a map that satisfies the invariants, assigning over `[b, e)`
the value every key of `[b, e)` already reads returns the state unchanged. -/
theorem assign_same_value_noop_copy [DecidableEq V] (m : semiopen_interval V) (b e : Int)
    (v : V) (hinv : invariants m) (hbe : b < e)
    (hread : ∀ k, b ≤ k → k < e → m.lookup k = some v) : m.assign id b e v = some m := by
  have hasc := hinv.1
  have h := assign_eq id m b e v hasc
  have hinv' := invariants_assign_copy hinv h
  rw [h]
  congr 1
  obtain ⟨d, t⟩ := m
  simp only at hasc h hinv' hread ⊢
  congr 1
  refine @table_eq_of_lookup_eq V ⟨d, assign_table id d t b e v⟩ ⟨d, t⟩ rfl hinv' hinv ?_
  intro k
  rw [lookup_eq k hinv'.1, lookup_eq k hasc]
  simp only
  by_cases hk : b ≤ k ∧ k < e
  · have h1 := hread k hk.1 hk.2
    rw [lookup_eq k hasc] at h1
    injection h1 with h1
    simp only at h1
    rw [value_after_assign_table_inside id d v hbe hk.1 hk.2, h1]
  · rw [value_after_assign_table_outside d v hasc (by omega)]

/-- When moving is copying: two maps obtained from fresh maps with the same default by
sequences of `assign` calls, and that return the same value at every key, have identical
breakpoint tables. -/
theorem canonical_assign_all_copy [DecidableEq V] (d : V) (ops1 ops2 : List (Int × Int × V)) :
    ∃ m1 m2, (semiopen_interval.new d).assign_all id ops1 = some m1 ∧
      (semiopen_interval.new d).assign_all id ops2 = some m2 ∧
      ((∀ k, m1.lookup k = m2.lookup k) → m1._so_intervals = m2._so_intervals) := by
  obtain ⟨m1, hm1, hd1, hinv1⟩ := invariants_assign_all_copy ops1 _ (invariants_new d)
  obtain ⟨m2, hm2, hd2, hinv2⟩ := invariants_assign_all_copy ops2 _ (invariants_new d)
  exact ⟨m1, m2, hm1, hm2, table_eq_of_lookup_eq (by rw [hd1, hd2]) hinv1 hinv2⟩


/-- The scenario of `test_assign_simple_nv` ("inserting a range after the map"): with `char`
values, `assign(2, 3, 'A')` past the last breakpoint of `{-2:'B', -1:'A', 0:'B', 1:'A'}` with
default `'A'` returns the state unchanged. -/
theorem assign_after_table_noop_test :
    (⟨'A', [(-2, 'B'), (-1, 'A'), (0, 'B'), (1, 'A')]⟩ : semiopen_interval Char).assign id 2 3
        'A' = some ⟨'A', [(-2, 'B'), (-1, 'A'), (0, 'B'), (1, 'A')]⟩ := by
  decide

/-! ### `assign` through its forwarding reference -/

theorem read_lookup_ref (m : semiopen_interval V) (k : Int) :
    (m.lookup_ref k).bind (Val.read m._default_value m._so_intervals) = m.lookup k := by
  unfold semiopen_interval.lookup_ref semiopen_interval.lookup
  by_cases h : upper_bound m._so_intervals k = begin_ m._so_intervals
  · simp [h, Val.read]
  · simp only [h, if_false]
    cases prev m._so_intervals (upper_bound m._so_intervals k) <;> simp [Val.read]

/-- With `val` bound to an object outside the map, the call is `semiopen_interval.assign`. -/
theorem assign_ref_object [DecidableEq V] (mv : V → V) (m : semiopen_interval V) (b e : Int)
    (v : V) : m.assign_ref mv b e (Val.object v) = m.assign mv b e v := by
  unfold semiopen_interval.assign_ref semiopen_interval.assign
  simp only [Val.read, Option.bind_eq_bind, Option.some_bind]

theorem mem_of_second {t : Table V} {k : Int} {v : V}
    (h : second t (Iter.node k) = some v) : (k, v) ∈ t := by
  unfold second at h
  cases hf : t.find? (fun p => decide (p.1 = k)) with
  | none => simp [hf] at h
  | some p =>
    simp only [hf, Option.map_some', Option.some.injEq] at h
    have h1 := List.find?_some hf
    have h2 := List.mem_of_find?_eq_some hf
    simp only [decide_eq_true_eq] at h1
    rw [← h1, ← h]
    exact h2

theorem floor_entry_greatest {t : Table V} {k : Int} {p : Int × V} (hasc : ascending t)
    (h : floor_entry t k = some p) : ∀ q ∈ t, q.1 ≤ k → q.1 ≤ p.1 := by
  intro q hq hqk
  unfold floor_entry at h
  obtain ⟨ys, hys⟩ := List.getLast?_eq_some_iff.1 h
  have hql : q ∈ t.filter (fun p => decide (p.1 ≤ k)) :=
    List.mem_filter.2 ⟨hq, by simpa using hqk⟩
  have hascl := ascending_filter (fun p => decide (p.1 ≤ k)) hasc
  rw [hys] at hql hascl
  rcases List.mem_append.1 hql with h' | h'
  · exact le_of_lt ((List.pairwise_append.1 hascl).2.2 q h' p (by simp))
  · simp only [List.mem_singleton] at h'
    rw [h']

theorem second_insert {t : Table V} {k e : Int} {v x : V} (hasc : ascending t)
    (hm : (k, v) ∈ t) (hke : k = e → v = x) :
    second (t.filter (fun p => decide (p.1 < e)) ++ (e, x) :: t.filter (fun p => decide (e < p.1)))
      (Iter.node k) = some v := by
  apply second_of_mem (ascending_insert e x hasc)
  rcases lt_trichotomy k e with h | h | h
  · exact List.mem_append_left _ (List.mem_filter.2 ⟨hm, by simpa using h⟩)
  · subst h
    rw [hke rfl]
    simp
  · apply List.mem_append_right
    exact List.mem_cons_of_mem _ (List.mem_filter.2 ⟨hm, by simpa using h⟩)

theorem second_emplace {t : Table V} {k e : Int} {v x : V} (hasc : ascending t)
    (hm : (k, v) ∈ t) : second (emplace t e x) (Iter.node k) = some v := by
  unfold emplace
  by_cases hany : t.any (fun p => decide (p.1 = e)) = true
  · rw [if_pos hany]
    exact second_of_mem hasc hm
  · rw [if_neg hany]
    apply second_insert hasc hm
    intro hke
    exfalso
    apply hany
    rw [List.any_eq_true]
    exact ⟨(k, v), hm, by simpa using hke⟩

/-- When moving is copying, a call with `val` bound to any object that reads `v`, stored in
the map or not, does what the call with an object outside the map holding `v` does. -/
theorem assign_ref_copy [DecidableEq V] (m : semiopen_interval V) (b e : Int) (val : Val V)
    (v : V) (hasc : ascending m._so_intervals)
    (hread : val.read m._default_value m._so_intervals = some v) :
    m.assign_ref id b e val = m.assign id b e v := by
  obtain ⟨d, t⟩ := m
  simp only at hasc hread
  cases val with
  | object v' =>
    simp only [Val.read, Option.some.injEq] at hread
    rw [hread, assign_ref_object]
  | default_value =>
    simp only [Val.read, Option.some.injEq] at hread
    subst hread
    unfold semiopen_interval.assign_ref semiopen_interval.assign
    simp only [Val.read, Option.bind_eq_bind, Option.some_bind]
  | second it =>
    cases it with
    | past_end => simp [Val.read, second] at hread
    | node k =>
      simp only [Val.read] at hread
      have hm := mem_of_second hread
      by_cases hbe : b < e
      · have hne : t.isEmpty = false := by
          cases t with
          | nil => simp at hm
          | cons _ _ => rfl
        by_cases hub : upper_bound t e = begin_ t
        · have h1 : second (emplace t e d) (Iter.node k) = some v := second_emplace hasc hm
          unfold semiopen_interval.assign_ref semiopen_interval.assign
          simp only [hbe, not_true_eq_false, if_false, hne, Bool.false_eq_true, hub, if_true,
            Val.read, hread, Option.bind_eq_bind, Option.some_bind, emplace_hint, h1]
        · cases hfl : floor_entry t e with
          | none => exact absurd ((upper_bound_eq_begin_iff e hasc).2 hfl) hub
          | some p =>
            obtain ⟨pk, x⟩ := p
            obtain ⟨hpm, hpe⟩ := floor_entry_mem hfl
            simp only at hpe
            have hprev : prev t (upper_bound t e) = some (Iter.node pk) := by
              rw [prev_upper_bound e hasc, hfl]; rfl
            have hsec : second t (Iter.node pk) = some x := second_of_mem hasc hpm
            have hmap := map_move_id hasc hpm
            have hke : k = e → v = x := by
              intro h
              subst h
              have h1 := floor_entry_greatest hasc hfl (k, v) hm (le_refl _)
              simp only at h1
              have h2 : k = pk := by omega
              subst h2
              exact (Prod.mk.inj (eq_of_mem_of_key_eq hasc hm hpm rfl)).2
            have h2 := second_insert hasc hm hke
            unfold semiopen_interval.assign_ref semiopen_interval.assign
            simp only [hbe, not_true_eq_false, if_false, hne, Bool.false_eq_true, hub, hprev,
              hsec, Option.bind_eq_bind, Option.some_bind, set_second, insert_or_assign,
              Val.read, hmap, h2]
      · unfold semiopen_interval.assign_ref semiopen_interval.assign
        simp [hbe]

/-! ### The range assigned and the breakpoint at `end`, by the binding of `val` -/

/-- For `val` bound to an object outside the map: on a map whose table has strictly ascending
keys, for `b < e` and every key `k` with `b ≤ k < e`, `assign(b, e, v)` succeeds and
`operator[]` then returns `v` at `k`, whatever state `std::move` leaves a moved-from value
in. -/
theorem assign_sets_range_by_value [DecidableEq V] (mv : V → V) (m : semiopen_interval V)
    (b e k : Int) (v : V) (hasc : ascending m._so_intervals) (hbe : b < e) (hk1 : b ≤ k)
    (hk2 : k < e) : ∃ m', m.assign mv b e v = some m' ∧ m'.lookup k = some v := by
  refine ⟨_, assign_eq mv m b e v hasc, ?_⟩
  rw [lookup_eq k (ascending_assign_table mv _ b e v hasc)]
  simp only
  rw [value_after_assign_table_inside mv _ v hbe hk1 hk2]

theorem assign_sets_range_by_value_example :
    ascending (⟨'A', [(0, 'B'), (1, 'A')]⟩ : semiopen_interval Char)._so_intervals ∧
      (-1 : Int) < 1 ∧ (-1 : Int) ≤ 0 ∧ (0 : Int) < 1 ∧
      ∃ m', (⟨'A', [(0, 'B'), (1, 'A')]⟩ : semiopen_interval Char).assign id (-1) 1 'D' = some m' ∧
        m'.lookup 0 = some 'D' :=
  ⟨by decide, by decide, by decide, by decide,
    assign_sets_range_by_value id ⟨'A', [(0, 'B'), (1, 'A')]⟩ (-1) 1 0 'D' (by decide)
      (by decide) (by decide) (by decide)⟩

/-- When moving is copying, for every binding of `val` that reads `v`: for `b < e` and every
key `k` with `b ≤ k < e`, the call succeeds and `operator[]` then returns `v` at `k`. -/
theorem assign_ref_sets_range_copy [DecidableEq V] (m : semiopen_interval V) (b e k : Int)
    (val : Val V) (v : V) (hasc : ascending m._so_intervals)
    (hread : val.read m._default_value m._so_intervals = some v) (hbe : b < e) (hk1 : b ≤ k)
    (hk2 : k < e) : ∃ m', m.assign_ref id b e val = some m' ∧ m'.lookup k = some v := by
  rw [assign_ref_copy m b e val v hasc hread]
  exact assign_sets_range_by_value id m b e k v hasc hbe hk1 hk2

/-- For `val` bound to an object outside the map: on a table with strictly ascending keys and
for `b < e`, let `tail_value` be what `operator[]` returns at `e` before the call.  After
`assign(b, e, v)` the table holds a breakpoint at key `e` if and only if `tail_value ≠ v`, and
a breakpoint at `e` carries `tail_value`, whatever state `std::move` leaves a moved-from value
in. -/
theorem end_breakpoint_by_value [DecidableEq V] (mv : V → V)
    (m : semiopen_interval V) (b e : Int) (v : V) (hasc : ascending m._so_intervals)
    (hbe : b < e) :
    ∃ m' tail_value, m.lookup e = some tail_value ∧ m.assign mv b e v = some m' ∧
      ((∃ x, (e, x) ∈ m'._so_intervals) ↔ tail_value ≠ v) ∧
      (∀ x, (e, x) ∈ m'._so_intervals → x = tail_value) := by
  refine ⟨_, _, lookup_eq e hasc, assign_eq mv m b e v hasc, ?_, ?_⟩
  · simp only [mem_assign_table_end mv _ v _ hbe]
    constructor
    · rintro ⟨x, _, h⟩
      exact fun hc => h hc.symm
    · intro h
      exact ⟨_, rfl, fun hc => h hc.symm⟩
  · intro x hx
    exact ((mem_assign_table_end mv _ v x hbe).1 hx).1

theorem end_breakpoint_by_value_example :
    ascending (⟨'A', [(-1, 'D'), (1, 'A')]⟩ : semiopen_interval Char)._so_intervals ∧
      (-1 : Int) < 0 ∧
      ∃ m' tail_value,
        (⟨'A', [(-1, 'D'), (1, 'A')]⟩ : semiopen_interval Char).lookup 0 = some tail_value ∧
        (⟨'A', [(-1, 'D'), (1, 'A')]⟩ : semiopen_interval Char).assign id (-1) 0 'E' =
          some m' ∧
        ((∃ x, (0, x) ∈ m'._so_intervals) ↔ tail_value ≠ 'E') ∧
        (∀ x, (0, x) ∈ m'._so_intervals → x = tail_value) :=
  ⟨by decide, by decide,
    end_breakpoint_by_value id ⟨'A', [(-1, 'D'), (1, 'A')]⟩ (-1) 0 'E' (by decide)
      (by decide)⟩

/-- When moving is copying, for every binding of `val` that reads `v`: for `b < e` the table
after the call holds a breakpoint at `e` if and only if the value `operator[]` returned at `e`
before the call differs from `v`, and that breakpoint carries that value. -/
theorem end_breakpoint_ref_copy [DecidableEq V] (m : semiopen_interval V) (b e : Int)
    (val : Val V) (v : V) (hasc : ascending m._so_intervals)
    (hread : val.read m._default_value m._so_intervals = some v) (hbe : b < e) :
    ∃ m' tail_value, m.lookup e = some tail_value ∧ m.assign_ref id b e val = some m' ∧
      ((∃ x, (e, x) ∈ m'._so_intervals) ↔ tail_value ≠ v) ∧
      (∀ x, (e, x) ∈ m'._so_intervals → x = tail_value) := by
  rw [assign_ref_copy m b e val v hasc hread]
  exact end_breakpoint_by_value id m b e v hasc hbe

end Lemmas


/-! ## The claims -/

/-- C3: when `begin` is not strictly less than `end` (empty or reversed range), `assign`
returns the state it was given: same default value, same breakpoint table. -/
theorem C3_assign_empty_range_noop {V : Type} [DecidableEq V] (mv : V → V)
    (m : semiopen_interval V) (b e : Int) (v : V) (hbe : ¬ b < e) :
    m.assign mv b e v = some m := by
  unfold semiopen_interval.assign
  simp [hbe]

theorem C3_assign_empty_range_noop_witness :
    ¬ ((0 : Int) < -1) ∧
      (semiopen_interval.new 'A').assign id 0 (-1) 'B' = some (semiopen_interval.new 'A') :=
  ⟨by decide, C3_assign_empty_range_noop id (semiopen_interval.new 'A') 0 (-1) 'B' (by decide)⟩

/-- C6: on a table with strictly ascending keys, `operator[]` returns the default value when no
breakpoint has a key `≤ k`, and the value of the breakpoint with the greatest key `≤ k`
otherwise; its default-value branch (`it == begin()`) is taken exactly when no breakpoint has a
key `≤ k`, that is when the table is empty or `k` precedes its first breakpoint.  The lookup is a
function of the state and returns only a value: it has no state to change. -/
theorem C6_lookup_greatest_key_le {V : Type} (m : semiopen_interval V) (k : Int)
    (hasc : ascending m._so_intervals) :
    ((∀ p ∈ m._so_intervals, k < p.1) → m.lookup k = some m._default_value) ∧
    (∀ p ∈ m._so_intervals, p.1 ≤ k → (∀ q ∈ m._so_intervals, q.1 ≤ k → q.1 ≤ p.1) →
      m.lookup k = some p.2) ∧
    (upper_bound m._so_intervals k = begin_ m._so_intervals ↔ ∀ p ∈ m._so_intervals, k < p.1) ∧
    ((∀ p ∈ m._so_intervals, k < p.1) ↔
      (m._so_intervals = [] ∨ ∃ hd r, m._so_intervals = hd :: r ∧ k < hd.1)) := by
  have hnone : floor_entry m._so_intervals k = none ↔ ∀ p ∈ m._so_intervals, k < p.1 := by
    unfold floor_entry
    rw [List.getLast?_eq_none_iff, List.filter_eq_nil_iff]
    constructor
    · intro h p hp
      have := h p hp
      simp only [decide_eq_true_eq] at this
      omega
    · intro h p hp
      have := h p hp
      simp only [decide_eq_true_eq]
      omega
  refine ⟨?_, ?_, ?_, ?_⟩
  · intro h
    rw [lookup_eq k hasc, floor_entry_none (hnone.2 h)]
    rfl
  · intro p hp hpk hmax
    rw [lookup_eq k hasc]
    have := floor_entry_of_greatest hasc hp hpk hmax
    rw [floor_entry_value _ this]
  · rw [upper_bound_eq_begin_iff k hasc, hnone]
  · constructor
    · intro h
      cases hm : m._so_intervals with
      | nil => exact Or.inl rfl
      | cons hd r =>
        refine Or.inr ⟨hd, r, rfl, h hd ?_⟩
        rw [hm]; simp
    · rintro (h | ⟨hd, r, h, hk⟩) p hp
      · rw [h] at hp; simp at hp
      · rw [h] at hp hasc
        rcases List.mem_cons.1 hp with h' | h'
        · rw [h']; exact hk
        · have := (List.pairwise_cons.1 hasc).1 p h'
          omega

theorem C6_lookup_greatest_key_le_witness :
    ascending (⟨'A', [(0, 'B'), (1, 'A')]⟩ : semiopen_interval Char)._so_intervals ∧
      (⟨'A', [(0, 'B'), (1, 'A')]⟩ : semiopen_interval Char).lookup 0 = some 'B' :=
  ⟨by decide,
    (C6_lookup_greatest_key_le ⟨'A', [(0, 'B'), (1, 'A')]⟩ 0 (by decide)).2.1 (0, 'B')
      (by decide) (by decide) (by decide)⟩

/-- C2 at a failing input: with `std::string` values, `assign(2, 5, "b")` on the table
`{0 → "a", 10 → ""}` changes the value read at key `0`, outside `[2, 5)`, from `"a"` to `""`. -/
theorem C2_frame_fails_for_string :
    ascending (⟨"", [(0, "a"), (10, "")]⟩ : semiopen_interval String)._so_intervals ∧
      (⟨"", [(0, "a"), (10, "")]⟩ : semiopen_interval String).lookup 0 = some "a" ∧
      (⟨"", [(0, "a"), (10, "")]⟩ : semiopen_interval String).assign moved_from_string 2 5 "b" =
        some ⟨"", [(0, ""), (2, "b"), (5, "a"), (10, "")]⟩ ∧
      (⟨"", [(0, ""), (2, "b"), (5, "a"), (10, "")]⟩ : semiopen_interval String).lookup 0 =
        some "" := by
  decide

/-- C4 at a failing input: with `std::string` values, `assign(0, 10, "a")` then
`assign(2, 5, "b")` on a fresh map with default `""` leaves a first breakpoint `0 → ""` that
repeats the default value. -/
theorem C4_no_repeated_value_fails_for_string :
    (semiopen_interval.new "").assign_all moved_from_string [(0, 10, "a"), (2, 5, "b")] =
        some ⟨"", [(0, ""), (2, "b"), (5, "a"), (10, "")]⟩ ∧
      ¬ no_repeated_value "" [((0 : Int), ""), (2, "b"), (5, "a"), (10, "")] := by
  decide

/-- C5 at a failing input: with `std::string` values, `assign(0, 3, "b")`, `assign(1, 2, "")`,
`assign(1, 3, "")` on a fresh map with default `""` leaves a table of exactly one breakpoint,
which fails the size check of `invariants_test`. -/
theorem C5_size_fails_for_string :
    (semiopen_interval.new "").assign_all moved_from_string
        [(0, 3, "b"), (1, 2, ""), (1, 3, "")] = some ⟨"", [(0, "")]⟩ ∧
      ¬ invariants_test (⟨"", [(0, "")]⟩ : semiopen_interval String) := by
  decide

/-- C7 at a failing input: with `std::string` values and default `"z"`, after
`assign(0, 1, "")` and `assign(2, 3, "")` the key `1`, which lies in neither range, reads `""`
and not the default. -/
theorem C7_uncovered_key_fails_for_string :
    (semiopen_interval.new "z").assign_all moved_from_string [(0, 1, ""), (2, 3, "")] =
        some ⟨"z", [(0, ""), (1, ""), (3, "z")]⟩ ∧
      (⟨"z", [(0, ""), (1, ""), (3, "z")]⟩ : semiopen_interval String).lookup 1 = some "" := by
  decide

/-- C8 at a failing input: with `std::string` values, on the map reached from a fresh map with
default `""` by `assign(0, 1, "b")` and `assign(2, 3, "b")`, one `assign(1, 2, "b")` gives the
table `{0 → "b", 3 → ""}` and a second one changes it to `{0 → "", 1 → "b", 3 → ""}`. -/
theorem C8_idempotence_fails_for_string :
    (semiopen_interval.new "").assign_all moved_from_string
        [(0, 1, "b"), (2, 3, "b"), (1, 2, "b")] = some ⟨"", [(0, "b"), (3, "")]⟩ ∧
      (semiopen_interval.new "").assign_all moved_from_string
        [(0, 1, "b"), (2, 3, "b"), (1, 2, "b"), (1, 2, "b")] =
        some ⟨"", [(0, ""), (1, "b"), (3, "")]⟩ := by
  decide

/-- C9 at a failing input: with `std::string` values, the map `{0 → "b", 3 → ""}` with default
`""` satisfies the invariants and reads `"b"` both left of `1` and at `2`, yet
`assign(1, 2, "b")` leaves a breakpoint at key `1` and the table grows from 2 to 3 entries. -/
theorem C9_merge_collapse_fails_for_string :
    invariants (⟨"", [(0, "b"), (3, "")]⟩ : semiopen_interval String) ∧
      (⟨"", [(0, "b"), (3, "")]⟩ : semiopen_interval String).lookup 0 = some "b" ∧
      (⟨"", [(0, "b"), (3, "")]⟩ : semiopen_interval String).lookup 2 = some "b" ∧
      (⟨"", [(0, "b"), (3, "")]⟩ : semiopen_interval String).assign moved_from_string 1 2 "b" =
        some ⟨"", [(0, ""), (1, "b"), (3, "")]⟩ := by
  decide


/-! ### Definedness and ordering of keys -/

/-- C12: for every default `d`, every value type and every finite sequence of `assign` calls
applied to a fresh map, all calls succeed and the breakpoint keys of the resulting table are
strictly ascending, hence pairwise distinct: no key, `begin` and `end` included, ever has two
entries. -/
theorem C12_keys_strictly_ascending {V : Type} [DecidableEq V] (mv : V → V) (d : V)
    (ops : List (Int × Int × V)) :
    ∃ m, (semiopen_interval.new d).assign_all mv ops = some m ∧
      ascending m._so_intervals ∧ (m._so_intervals.map Prod.fst).Nodup := by
  obtain ⟨m, hm, hasc, _⟩ := assign_all_ascending mv ops (semiopen_interval.new d)
    (by simp [semiopen_interval.new, ascending])
  exact ⟨m, hm, hasc, nodup_keys_of_ascending hasc⟩

/-! ### Empty table and ranges left of the table -/

/-- C18: on a map with an empty table and for `b < e`, `assign(b, e, v)` leaves the state
unchanged (table still empty) when `v` equals the default, and otherwise leaves the table
exactly `{b → v, e → default}`; for every value type. -/
theorem C18_assign_on_empty_table {V : Type} [DecidableEq V] (mv : V → V)
    (m : semiopen_interval V) (b e : Int) (v : V) (hempty : m._so_intervals = [])
    (hbe : b < e) :
    (v = m._default_value → m.assign mv b e v = some m) ∧
    (v ≠ m._default_value →
      m.assign mv b e v = some ⟨m._default_value, [(b, v), (e, m._default_value)]⟩) := by
  obtain ⟨d, t⟩ := m
  simp only at hempty
  subst hempty
  have hasc : ascending ([] : Table V) := by simp [ascending]
  rw [assign_eq mv ⟨d, []⟩ b e v hasc]
  simp only [assign_table_none mv d v hbe (floor_entry_nil e)]
  constructor
  · intro hv; simp [hv]
  · intro hv; simp [hv]

theorem C18_assign_on_empty_table_witness :
    (semiopen_interval.new 'A')._so_intervals = [] ∧ (0 : Int) < 1 ∧
      (semiopen_interval.new 'A').assign id 0 1 'A' = some (semiopen_interval.new 'A') ∧
      (semiopen_interval.new 'A').assign id 0 1 'B' = some ⟨'A', [(0, 'B'), (1, 'A')]⟩ :=
  ⟨rfl, by decide,
    (C18_assign_on_empty_table id (semiopen_interval.new 'A') 0 1 'A' rfl (by decide)).1 rfl,
    (C18_assign_on_empty_table id (semiopen_interval.new 'A') 0 1 'B' rfl (by decide)).2
      (by decide)⟩

/-- C15 at a failing input: with `std::string` values, on the table `{0 → "b", 3 → ""}` with
default `""` the value in effect left of `1` is `"b"`, yet `assign(1, 2, "b")` leaves a
breakpoint at key `1`. -/
theorem C15_merge_left_fails_for_string :
    ascending (⟨"", [(0, "b"), (3, "")]⟩ : semiopen_interval String)._so_intervals ∧
      value_after "" ([((0 : Int), "b"), (3, "")].filter (fun p => decide (p.1 < 1))) = "b" ∧
      (⟨"", [(0, "b"), (3, "")]⟩ : semiopen_interval String).assign moved_from_string 1 2 "b" =
        some ⟨"", [(0, ""), (1, "b"), (3, "")]⟩ ∧
      ((1 : Int), "b") ∈ [((0 : Int), ""), (1, "b"), (3, "")] := by
  decide

/-- C17 at a failing input: with `std::string` values, `assign(2, 5, "b")` on the table
`{0 → "a", 10 → ""}` leaves `{0 → "", 2 → "b", 5 → "a", 10 → ""}`: the breakpoint at key `0`,
left of `[2, 5]`, no longer stores `"a"`. -/
theorem C17_outside_entries_fail_for_string :
    ascending (⟨"", [(0, "a"), (10, "")]⟩ : semiopen_interval String)._so_intervals ∧
      ((0 : Int), "a") ∈ (⟨"", [(0, "a"), (10, "")]⟩ : semiopen_interval String)._so_intervals ∧
      (⟨"", [(0, "a"), (10, "")]⟩ : semiopen_interval String).assign moved_from_string 2 5 "b" =
        some ⟨"", [(0, ""), (2, "b"), (5, "a"), (10, "")]⟩ ∧
      ((0 : Int), "a") ∉ [((0 : Int), ""), (2, "b"), (5, "a"), (10, "")] := by
  decide

/-- C19 at a failing input: with `std::string` values, the map `{0 → "b", 3 → ""}` with
default `""` satisfies the invariants and reads `"b"` at every key of `[1, 2)`, yet
`assign(1, 2, "b")` changes the table to `{0 → "", 1 → "b", 3 → ""}`. -/
theorem C19_reassign_fails_for_string :
    invariants (⟨"", [(0, "b"), (3, "")]⟩ : semiopen_interval String) ∧
      (∀ k : Int, 1 ≤ k → k < 2 →
        (⟨"", [(0, "b"), (3, "")]⟩ : semiopen_interval String).lookup k = some "b") ∧
      (⟨"", [(0, "b"), (3, "")]⟩ : semiopen_interval String).assign moved_from_string 1 2 "b" =
        some ⟨"", [(0, ""), (1, "b"), (3, "")]⟩ ∧
      [((0 : Int), ""), (1, "b"), (3, "")] ≠ [(0, "b"), (3, "")] := by
  refine ⟨by decide, ?_, by decide, by decide⟩
  intro k h1 h2
  have hk : k = 1 := by omega
  subst hk
  decide

/-- C20 at a failing input: with `std::string` values and default `""`, the fresh map and the
map after `assign(0, 3, "b")`, `assign(1, 2, "")`, `assign(1, 3, "")` return `""` at every
key, yet the first table is empty and the second is `{0 → ""}`. -/
theorem C20_canonical_fails_for_string :
    (semiopen_interval.new "").assign_all moved_from_string [] = some ⟨"", []⟩ ∧
      (semiopen_interval.new "").assign_all moved_from_string
        [(0, 3, "b"), (1, 2, ""), (1, 3, "")] = some ⟨"", [(0, "")]⟩ ∧
      (∀ k : Int, (⟨"", []⟩ : semiopen_interval String).lookup k =
        (⟨"", [(0, "")]⟩ : semiopen_interval String).lookup k) ∧
      ([] : Table String) ≠ [(0, "")] := by
  refine ⟨by decide, by decide, ?_, by decide⟩
  intro k
  have h1 : ascending (⟨"", []⟩ : semiopen_interval String)._so_intervals := by decide
  have h2 : ascending (⟨"", [(0, "")]⟩ : semiopen_interval String)._so_intervals := by decide
  rw [lookup_eq k h1, lookup_eq k h2]
  by_cases hk : (0 : Int) ≤ k <;> simp [value_after, List.filter_cons, hk]

/-! ### A `val` that refers into the map, with a value type whose move empties its source -/

/-- C1 at a failing input: with `std::string` values, after `assign(0, 3, "b")` on a fresh map
with default `""` the call `assign(1, 2, m[0])` passes the reference to the `"b"` stored at
key `0`; the code leaves `{0 → "", 2 → "b", 3 → ""}`, and key `1`, inside `[1, 2)`, reads `""`
and not `"b"`. -/
theorem C1_assign_fails_for_aliased_string :
    (semiopen_interval.new "").assign_all moved_from_string [(0, 3, "b")] =
        some ⟨"", [(0, "b"), (3, "")]⟩ ∧
      (⟨"", [(0, "b"), (3, "")]⟩ : semiopen_interval String).lookup_ref 0 =
        some (Val.second (Iter.node 0)) ∧
      (⟨"", [(0, "b"), (3, "")]⟩ : semiopen_interval String).lookup 0 = some "b" ∧
      (⟨"", [(0, "b"), (3, "")]⟩ : semiopen_interval String).assign_ref moved_from_string 1 2
        (Val.second (Iter.node 0)) = some ⟨"", [(0, ""), (2, "b"), (3, "")]⟩ ∧
      (⟨"", [(0, ""), (2, "b"), (3, "")]⟩ : semiopen_interval String).lookup 1 = some "" := by
  decide

/-- C16 at a failing input: with `std::string` values, on the table `{0 → "b", 3 → ""}` with
default `""` the value read at `2` is `"b"`, and the call `assign(1, 2, m[0])` passes the
reference to the `"b"` stored at key `0`, so `tail_value` equals `v`; yet the code leaves
`{0 → "", 2 → "b", 3 → ""}`, with a breakpoint at `e = 2`. -/
theorem C16_merge_right_fails_for_aliased_string :
    (semiopen_interval.new "").assign_all moved_from_string [(0, 3, "b")] =
        some ⟨"", [(0, "b"), (3, "")]⟩ ∧
      (⟨"", [(0, "b"), (3, "")]⟩ : semiopen_interval String).lookup_ref 0 =
        some (Val.second (Iter.node 0)) ∧
      (⟨"", [(0, "b"), (3, "")]⟩ : semiopen_interval String).lookup 0 = some "b" ∧
      (⟨"", [(0, "b"), (3, "")]⟩ : semiopen_interval String).lookup 2 = some "b" ∧
      (⟨"", [(0, "b"), (3, "")]⟩ : semiopen_interval String).assign_ref moved_from_string 1 2
        (Val.second (Iter.node 0)) = some ⟨"", [(0, ""), (2, "b"), (3, "")]⟩ ∧
      ((2 : Int), "b") ∈ [((0 : Int), ""), (2, "b"), (3, "")] := by
  decide

end SemiopenInterval
